import Mathlib

/-!
Verification of the grid path-search core (gridEnv.py and search_algorithms.py).

The embedding below mirrors the Python source:
- a grid cell cost is a natural number or the impassable sentinel (`⊤` in
  `WithTop Nat`, standing for Python's `float('inf')`);
- positions are pairs of integers (row, column), as Python tuples;
- the `heapq` priority queue is modelled by a list of entries together with a
  pop-minimum operation for the lexicographic order on entry tuples (Python
  tuple comparison); `heapq` always pops a minimum entry, and entries that
  compare equal are identical tuples here, so the popped value is determined;
- the `visited` dict is an association list with first-occurrence lookup and
  in-place update;
- the search loops are defined by well-founded recursion (the Python loops
  terminate because a position's recorded best cost strictly decreases with
  every push); structurally recursive fuel twins are provided for evaluating
  concrete runs, with agreement lemmas connecting them to the real functions.
-/

set_option maxHeartbeats 1600000
set_option linter.unusedVariables false

abbrev Pos := Int × Int

abbrev Cost := WithTop Nat

abbrev CostZ := WithTop Int

/-- Coercion of a cell cost into the result-cost type (Python int/float widening). -/
def nzc (c : Cost) : CostZ := c.map Int.ofNat

/-- Result cost of a successful search: the accumulated natural-number cost. -/
def zc (g : Nat) : CostZ := ((g : Int) : CostZ)

/-- Result triple of the search functions: (path or none, cost, nodes expanded). -/
abbrev SearchResult := Option (List Pos) × CostZ × Nat

/-- The grid environment of gridEnv.py: the cost grid plus the registry of
dynamic obstacles (`self.grid` and `self.dynamic_obstacles`). -/
structure GridEnv where
  grid : List (List Cost)
  dynamicObstacles : List Pos
deriving DecidableEq, Repr

/-- Python: `self.height = len(self.grid)`. -/
def GridEnv.height (e : GridEnv) : Nat := e.grid.length

/-- Python: `self.width = len(self.grid[0])`. -/
def GridEnv.width (e : GridEnv) : Nat := (e.grid.headD []).length

/-- Python `is_valid`: `0 <= y < self.height and 0 <= x < self.width`. -/
def GridEnv.is_valid (e : GridEnv) (p : Pos) : Bool :=
  decide (0 ≤ p.1 ∧ p.1 < (e.height : Int) ∧ 0 ≤ p.2 ∧ p.2 < (e.width : Int))

/-- Python `get_cost`: `self.grid[pos[0]][pos[1]]`.  The Python expression is
only evaluated at in-bounds positions in the algorithms; out-of-range lookups
are totalised to the impassable sentinel here. -/
def GridEnv.get_cost (e : GridEnv) (p : Pos) : Cost :=
  (e.grid.getD p.1.toNat []).getD p.2.toNat ⊤

/-- Python `is_passable`: `self.grid[pos[0]][pos[1]] != float('inf')`. -/
def GridEnv.is_passable (e : GridEnv) (p : Pos) : Bool :=
  decide (e.get_cost p ≠ ⊤)

/-- Python `get_neighbors`: the four offsets `(0,1),(0,-1),(1,0),(-1,0)` in
order, filtered to in-bounds and passable positions. -/
def GridEnv.get_neighbors (e : GridEnv) (p : Pos) : List Pos :=
  [(p.1, p.2 + 1), (p.1, p.2 - 1), (p.1 + 1, p.2), (p.1 - 1, p.2)].filter
    (fun q => e.is_valid q && e.is_passable q)

/-- Python `is_dynamic_obstacle_at`: `pos in self.dynamic_obstacles and time_step >= 5`. -/
def GridEnv.is_dynamic_obstacle_at (e : GridEnv) (p : Pos) (time_step : Nat) : Bool :=
  decide (p ∈ e.dynamicObstacles) && decide (5 ≤ time_step)

/-- Python `update_grid_with_obstacle`: if `pos` is a registered dynamic
obstacle, set its grid cell to `float('inf')`; otherwise do nothing. -/
def GridEnv.update_grid_with_obstacle (e : GridEnv) (p : Pos) : GridEnv :=
  if p ∈ e.dynamicObstacles then
    { e with grid := e.grid.set p.1.toNat ((e.grid.getD p.1.toNat []).set p.2.toNat ⊤) }
  else e

/-- Python `manhattan_distance`: `abs(pos1[0]-pos2[0]) + abs(pos1[1]-pos2[1])`. -/
def manhattan_distance (p1 p2 : Pos) : Nat :=
  (p1.1 - p2.1).natAbs + (p1.2 - p2.2).natAbs

/-- UCS frontier entry `(cost, position, path_list)`. -/
abbrev UEntry := Nat × Pos × List Pos

/-- A* frontier entry `(f_cost, g_cost, position, path_list)`. -/
abbrev AEntry := Nat × Nat × Pos × List Pos

/-- Strict lexicographic order on positions (Python tuple comparison). -/
def posLt (a b : Pos) : Bool :=
  decide (a.1 < b.1) || (decide (a.1 = b.1) && decide (a.2 < b.2))

/-- Strict lexicographic order on position lists (Python list comparison). -/
def plistLt : List Pos → List Pos → Bool
  | [], [] => false
  | [], _ :: _ => true
  | _ :: _, [] => false
  | a :: as, b :: bs => posLt a b || (decide (a = b) && plistLt as bs)

/-- Strict lexicographic order on UCS entries. -/
def uLt (x y : UEntry) : Bool :=
  decide (x.1 < y.1) ||
    (decide (x.1 = y.1) &&
      (posLt x.2.1 y.2.1 || (decide (x.2.1 = y.2.1) && plistLt x.2.2 y.2.2)))

/-- Strict lexicographic order on A* entries. -/
def aLt (x y : AEntry) : Bool :=
  decide (x.1 < y.1) ||
    (decide (x.1 = y.1) &&
      (decide (x.2.1 < y.2.1) ||
        (decide (x.2.1 = y.2.1) &&
          (posLt x.2.2.1 y.2.2.1 ||
            (decide (x.2.2.1 = y.2.2.1) && plistLt x.2.2.2 y.2.2.2)))))

/-- Pop a minimum element (for the strict order `lt`) from a list, returning it
and the remaining elements; models `heapq.heappop`. -/
def popMin {E : Type} (lt : E → E → Bool) : List E → Option (E × List E)
  | [] => none
  | e :: es =>
    match popMin lt es with
    | none => some (e, [])
    | some (m, rest) => if lt m e then some (m, e :: rest) else some (e, es)

/-- The `visited` dict: an association list from positions to best pushed costs. -/
abbrev VMap := List (Pos × Nat)

/-- Dict lookup (`visited[pos]`, first occurrence). -/
def vlookup : VMap → Pos → Option Nat
  | [], _ => none
  | (q, c) :: rest, p => if q = p then some c else vlookup rest p

/-- Dict store (`visited[pos] = cost`): replace the first binding or append. -/
def vupdate : VMap → Pos → Nat → VMap
  | [], p, v => [(p, v)]
  | (q, c) :: rest, p, v => if q = p then (p, v) :: rest else (q, c) :: vupdate rest p v

/-- Extract the finite value of a cell cost.  The search only applies this to
costs of passable cells (produced by `get_neighbors`), which are never `⊤`. -/
def costD (c : Cost) : Nat := WithTop.untop' 0 c

/-- All in-bounds positions of the grid (used by the termination measure). -/
def allValidPos (e : GridEnv) : List Pos :=
  (List.range e.height).flatMap fun (y : Nat) =>
    (List.range e.width).map fun (x : Nat) => (((y : Nat) : Int), ((x : Nat) : Int))

/-- Number of in-bounds positions without a recorded best cost (termination measure). -/
def unvisCount (e : GridEnv) (vis : VMap) : Nat :=
  ((allValidPos e).filter (fun p => (vlookup vis p).isNone)).length

/-- Sum of all recorded best costs (termination measure). -/
def visSum (vis : VMap) : Nat := (vis.map Prod.snd).sum

/-- Neighbor relaxation step of `a_star_search` (the body of its `for` loop):
if the neighbor has no recorded cost or the new accumulated cost is strictly
lower, record it and push `(new_f, new_g, next, path + [next])`. -/
def relaxH (h : Pos → Pos → Nat) (e : GridEnv) (goal : Pos) (g : Nat) (path : List Pos)
    (acc : VMap × List AEntry) (next : Pos) : VMap × List AEntry :=
  let move := costD (e.get_cost next)
  let newG := g + move
  match vlookup acc.1 next with
  | none =>
      (vupdate acc.1 next newG, acc.2 ++ [(newG + h next goal, newG, next, path ++ [next])])
  | some old =>
      if newG < old then
        (vupdate acc.1 next newG, acc.2 ++ [(newG + h next goal, newG, next, path ++ [next])])
      else acc

/-- Neighbor relaxation step of `uniform_cost_search` (the body of its `for` loop). -/
def relaxU (e : GridEnv) (g : Nat) (path : List Pos)
    (acc : VMap × List UEntry) (next : Pos) : VMap × List UEntry :=
  let move := costD (e.get_cost next)
  let newG := g + move
  match vlookup acc.1 next with
  | none => (vupdate acc.1 next newG, acc.2 ++ [(newG, next, path ++ [next])])
  | some old =>
      if newG < old then (vupdate acc.1 next newG, acc.2 ++ [(newG, next, path ++ [next])])
      else acc

theorem vlookup_vupdate_self (vis : VMap) (p : Pos) (v : Nat) :
    vlookup (vupdate vis p v) p = some v := by
  induction vis with
  | nil => simp [vupdate, vlookup]
  | cons kv rest ih =>
    obtain ⟨k, c⟩ := kv
    by_cases hk : k = p
    · subst hk
      simp [vupdate, vlookup]
    · simp [vupdate, vlookup, hk, ih]

theorem vlookup_vupdate_ne (vis : VMap) (p : Pos) (v : Nat) (q : Pos) (hq : q ≠ p) :
    vlookup (vupdate vis p v) q = vlookup vis q := by
  induction vis with
  | nil =>
    simp [vupdate, vlookup, Ne.symm hq]
  | cons kv rest ih =>
    obtain ⟨k, c⟩ := kv
    by_cases hk : k = p
    · subst hk
      simp [vupdate, vlookup, Ne.symm hq]
    · by_cases hkq : k = q
      · subst hkq
        simp [vupdate, vlookup, hk]
      · simp [vupdate, vlookup, hk, hkq, ih]

theorem vlookup_vupdate (vis : VMap) (p : Pos) (v : Nat) (q : Pos) :
    vlookup (vupdate vis p v) q = if q = p then some v else vlookup vis q := by
  by_cases hq : q = p
  · subst hq
    simp [vlookup_vupdate_self]
  · simp [hq, vlookup_vupdate_ne vis p v q hq]

theorem visSum_vupdate (vis : VMap) (p : Pos) (v old : Nat)
    (h : vlookup vis p = some old) :
    visSum (vupdate vis p v) + old = visSum vis + v := by
  induction vis with
  | nil => simp [vlookup] at h
  | cons kv rest ih =>
    obtain ⟨k, c⟩ := kv
    by_cases hk : k = p
    · subst hk
      simp [vlookup] at h
      subst h
      simp [vupdate, visSum]
      omega
    · simp [vlookup, hk] at h
      have := ih h
      simp [vupdate, hk, visSum] at this ⊢
      omega

theorem mem_allValidPos (e : GridEnv) (p : Pos) :
    p ∈ allValidPos e ↔ e.is_valid p = true := by
  unfold allValidPos
  rw [List.mem_flatMap]
  constructor
  · rintro ⟨y, hy, hp⟩
    rw [List.mem_map] at hp
    obtain ⟨x, hx, hpe⟩ := hp
    subst hpe
    rw [List.mem_range] at hy hx
    simp only [GridEnv.is_valid, decide_eq_true_eq]
    refine ⟨Int.ofNat_nonneg y, ?_, Int.ofNat_nonneg x, ?_⟩
    · exact_mod_cast hy
    · exact_mod_cast hx
  · intro hp
    simp only [GridEnv.is_valid, decide_eq_true_eq] at hp
    obtain ⟨h1, h2, h3, h4⟩ := hp
    refine ⟨p.1.toNat, ?_, ?_⟩
    · rw [List.mem_range]; omega
    · rw [List.mem_map]
      refine ⟨p.2.toNat, ?_, ?_⟩
      · rw [List.mem_range]; omega
      · have e1 : (p.1.toNat : Int) = p.1 := Int.toNat_of_nonneg h1
        have e2 : (p.2.toNat : Int) = p.2 := Int.toNat_of_nonneg h3
        rw [e1, e2]

theorem length_filter_le_of_imp {α : Type} (L : List α) (pa pb : α → Bool)
    (hmono : ∀ x ∈ L, pb x = true → pa x = true) :
    (L.filter pb).length ≤ (L.filter pa).length := by
  induction L with
  | nil => simp
  | cons a as ih =>
    have ih' := ih (fun x hx => hmono x (List.mem_cons_of_mem a hx))
    by_cases hb : pb a = true
    · have ha := hmono a (List.mem_cons_self a as) hb
      simp [List.filter, hb, ha]
      omega
    · have hb' : pb a = false := by
        cases hpb : pb a
        · rfl
        · exact absurd hpb hb
      by_cases ha : pa a = true
      · simp [List.filter, hb', ha]
        omega
      · have ha' : pa a = false := by
          cases hpa : pa a
          · rfl
          · exact absurd hpa ha
        simp [List.filter, hb', ha']
        exact ih'

theorem length_filter_lt_of_imp {α : Type} (L : List α) (pa pb : α → Bool)
    (hmono : ∀ x ∈ L, pb x = true → pa x = true)
    (x : α) (hx : x ∈ L) (hpa : pa x = true) (hpb : pb x = false) :
    (L.filter pb).length < (L.filter pa).length := by
  induction L with
  | nil => simp at hx
  | cons a as ih =>
    rcases List.mem_cons.mp hx with h | h
    · subst h
      have hle := length_filter_le_of_imp as pa pb
        (fun y hy => hmono y (List.mem_cons_of_mem x hy))
      simp [List.filter, hpb, hpa]
      omega
    · have ih' := ih (fun y hy => hmono y (List.mem_cons_of_mem a hy)) h
      by_cases hb : pb a = true
      · have ha := hmono a (List.mem_cons_self a as) hb
        simp [List.filter, hb, ha]
        omega
      · have hb' : pb a = false := by
          cases hpb2 : pb a
          · rfl
          · exact absurd hpb2 hb
        by_cases ha : pa a = true
        · simp [List.filter, hb', ha]
          omega
        · have ha' : pa a = false := by
            cases hpa2 : pa a
            · rfl
            · exact absurd hpa2 ha
          simp [List.filter, hb', ha']
          exact ih'

theorem length_filter_congr {α : Type} (L : List α) (pa pb : α → Bool)
    (h : ∀ x ∈ L, pb x = pa x) :
    (L.filter pb).length = (L.filter pa).length :=
  Nat.le_antisymm
    (length_filter_le_of_imp L pa pb (fun x hx hb => (h x hx) ▸ hb))
    (length_filter_le_of_imp L pb pa (fun x hx hb => (h x hx).symm ▸ hb))

theorem unvisCount_vupdate_new (e : GridEnv) (vis : VMap) (p : Pos) (v : Nat)
    (hval : e.is_valid p = true) (hnew : vlookup vis p = none) :
    unvisCount e (vupdate vis p v) < unvisCount e vis := by
  apply length_filter_lt_of_imp (allValidPos e)
    (fun q => (vlookup vis q).isNone) (fun q => (vlookup (vupdate vis p v) q).isNone)
  · intro q _ hq
    rw [vlookup_vupdate] at hq
    by_cases hqp : q = p
    · simp [hqp] at hq
    · simpa [hqp] using hq
  · exact (mem_allValidPos e p).mpr hval
  · simp [hnew]
  · simp [vlookup_vupdate]

theorem unvisCount_vupdate_old (e : GridEnv) (vis : VMap) (p : Pos) (v old : Nat)
    (hold : vlookup vis p = some old) :
    unvisCount e (vupdate vis p v) = unvisCount e vis := by
  apply length_filter_congr
  intro q _
  rw [vlookup_vupdate]
  by_cases hqp : q = p
  · simp [hqp, hold]
  · simp [hqp]

theorem relaxH_step_spec (h : Pos → Pos → Nat) (e : GridEnv) (goal : Pos) (g : Nat)
    (path : List Pos) (q : Pos) (hq : e.is_valid q = true) (vis : VMap) (fr : List AEntry) :
    relaxH h e goal g path (vis, fr) q = (vis, fr) ∨
    unvisCount e (relaxH h e goal g path (vis, fr) q).1 < unvisCount e vis ∨
    (unvisCount e (relaxH h e goal g path (vis, fr) q).1 = unvisCount e vis ∧
      visSum (relaxH h e goal g path (vis, fr) q).1 < visSum vis) := by
  unfold relaxH
  cases hl : vlookup vis q with
  | none =>
    right; left
    simpa using unvisCount_vupdate_new e vis q _ hq hl
  | some old =>
    by_cases hlt : g + costD (e.get_cost q) < old
    · right; right
      constructor
      · simpa [hlt] using unvisCount_vupdate_old e vis q _ old hl
      · have := visSum_vupdate vis q (g + costD (e.get_cost q)) old hl
        simp [hlt]
        omega
    · left
      simp [hlt]

theorem relaxU_step_spec (e : GridEnv) (g : Nat)
    (path : List Pos) (q : Pos) (hq : e.is_valid q = true) (vis : VMap) (fr : List UEntry) :
    relaxU e g path (vis, fr) q = (vis, fr) ∨
    unvisCount e (relaxU e g path (vis, fr) q).1 < unvisCount e vis ∨
    (unvisCount e (relaxU e g path (vis, fr) q).1 = unvisCount e vis ∧
      visSum (relaxU e g path (vis, fr) q).1 < visSum vis) := by
  unfold relaxU
  cases hl : vlookup vis q with
  | none =>
    right; left
    simpa using unvisCount_vupdate_new e vis q _ hq hl
  | some old =>
    by_cases hlt : g + costD (e.get_cost q) < old
    · right; right
      constructor
      · simpa [hlt] using unvisCount_vupdate_old e vis q _ old hl
      · have := visSum_vupdate vis q (g + costD (e.get_cost q)) old hl
        simp [hlt]
        omega
    · left
      simp [hlt]

theorem fold_measure_spec {F : Type} (e : GridEnv)
    (step : (VMap × List F) → Pos → (VMap × List F))
    (hstep : ∀ q vis fr, q ∈ (allValidPos e) →
      step (vis, fr) q = (vis, fr) ∨
      unvisCount e (step (vis, fr) q).1 < unvisCount e vis ∨
      (unvisCount e (step (vis, fr) q).1 = unvisCount e vis ∧
        visSum (step (vis, fr) q).1 < visSum vis))
    (ns : List Pos) (hns : ∀ q ∈ ns, q ∈ allValidPos e) :
    ∀ vis fr,
      ns.foldl step (vis, fr) = (vis, fr) ∨
      unvisCount e (ns.foldl step (vis, fr)).1 < unvisCount e vis ∨
      (unvisCount e (ns.foldl step (vis, fr)).1 = unvisCount e vis ∧
        visSum (ns.foldl step (vis, fr)).1 < visSum vis) := by
  induction ns with
  | nil => intro vis fr; left; rfl
  | cons q ns ih =>
    intro vis fr
    have hq := hns q (List.mem_cons_self q ns)
    have hns' : ∀ r ∈ ns, r ∈ allValidPos e := fun r hr => hns r (List.mem_cons_of_mem q hr)
    have h1 := hstep q vis fr hq
    rcases h1 with heq | hlt | ⟨heq2, hlt2⟩
    · simp only [List.foldl_cons, heq]
      exact ih hns' vis fr
    · rcases h2 : step (vis, fr) q with ⟨vis1, fr1⟩
      rw [h2] at hlt
      dsimp only at hlt
      have hrec := ih hns' vis1 fr1
      simp only [List.foldl_cons, h2]
      rcases hrec with heq3 | hlt3 | ⟨heq4, hlt4⟩
      · rw [heq3]; right; left; exact hlt
      · right; left; omega
      · right; left; omega
    · rcases h2 : step (vis, fr) q with ⟨vis1, fr1⟩
      rw [h2] at heq2 hlt2
      dsimp only at heq2 hlt2
      have hrec := ih hns' vis1 fr1
      simp only [List.foldl_cons, h2]
      rcases hrec with heq3 | hlt3 | ⟨heq4, hlt4⟩
      · rw [heq3]; right; right
        dsimp only
        exact ⟨heq2, hlt2⟩
      · right; left; omega
      · right; right; constructor <;> omega

theorem popMin_none {E : Type} (lt : E → E → Bool) (l : List E) :
    popMin lt l = none ↔ l = [] := by
  cases l with
  | nil => simp [popMin]
  | cons e es =>
    simp only [popMin]
    cases hp : popMin lt es with
    | none => simp
    | some p =>
      obtain ⟨m, r⟩ := p
      by_cases hc : lt m e = true <;> simp [hc]

theorem popMin_length {E : Type} (lt : E → E → Bool) :
    ∀ (l : List E) (m : E) (rest : List E), popMin lt l = some (m, rest) →
      rest.length + 1 = l.length := by
  intro l
  induction l with
  | nil => intro m rest h; simp [popMin] at h
  | cons e es ih =>
    intro m rest h
    simp only [popMin] at h
    cases hp : popMin lt es with
    | none =>
      rw [hp] at h
      have hes : es = [] := (popMin_none lt es).mp hp
      subst hes
      simp at h
      obtain ⟨h1, h2⟩ := h
      subst h2
      simp
    | some p =>
      obtain ⟨m2, rest2⟩ := p
      rw [hp] at h
      have hlen := ih m2 rest2 hp
      by_cases hc : lt m2 e = true
      · simp [hc] at h
        obtain ⟨h1, h2⟩ := h
        subst h2
        simp
        omega
      · simp [hc] at h
        obtain ⟨h1, h2⟩ := h
        subst h2
        rfl

theorem get_neighbors_valid (e : GridEnv) (p : Pos) :
    ∀ q ∈ e.get_neighbors p, e.is_valid q = true := by
  intro q hq
  simp only [GridEnv.get_neighbors, List.mem_filter] at hq
  exact (Bool.and_eq_true _ _ |>.mp hq.2).1

/-- The main loop of `a_star_search`, parameterized by the heuristic function:
pop the minimum entry, count it as expanded, return if it is the goal,
otherwise relax all neighbors and continue. -/
def hloop (h : Pos → Pos → Nat) (e : GridEnv) (goal : Pos)
    (fr : List AEntry) (vis : VMap) (n : Nat) : SearchResult :=
  match hp : popMin aLt fr with
  | none => (none, ((-1 : Int) : CostZ), n)
  | some (entry, rest) =>
    if entry.2.2.1 = goal then (some entry.2.2.2, zc entry.2.1, n + 1)
    else
      hloop h e goal
        ((e.get_neighbors entry.2.2.1).foldl (relaxH h e goal entry.2.1 entry.2.2.2) (vis, rest)).2
        ((e.get_neighbors entry.2.2.1).foldl (relaxH h e goal entry.2.1 entry.2.2.2) (vis, rest)).1
        (n + 1)
termination_by (unvisCount e vis, visSum vis, fr.length)
decreasing_by
  rcases fold_measure_spec e (relaxH h e goal entry.2.1 entry.2.2.2)
    (fun q vis2 fr2 hq => relaxH_step_spec h e goal entry.2.1 entry.2.2.2 q
      ((mem_allValidPos e q).mp hq) vis2 fr2)
    (e.get_neighbors entry.2.2.1)
    (fun q hq => (mem_allValidPos e q).mpr (get_neighbors_valid e entry.2.2.1 q hq))
    vis rest with heq | hlt | ⟨heq2, hlt2⟩
  · rw [heq]
    apply Prod.Lex.right
    apply Prod.Lex.right
    show rest.length < fr.length
    have hlen := popMin_length aLt fr entry rest hp
    omega
  · apply Prod.Lex.left
    exact hlt
  · rw [heq2]
    apply Prod.Lex.right
    apply Prod.Lex.left
    exact hlt2

/-- The main loop of `uniform_cost_search`. -/
def uloop (e : GridEnv) (goal : Pos)
    (fr : List UEntry) (vis : VMap) (n : Nat) : SearchResult :=
  match hp : popMin uLt fr with
  | none => (none, ((-1 : Int) : CostZ), n)
  | some (entry, rest) =>
    if entry.2.1 = goal then (some entry.2.2, zc entry.1, n + 1)
    else
      uloop e goal
        ((e.get_neighbors entry.2.1).foldl (relaxU e entry.1 entry.2.2) (vis, rest)).2
        ((e.get_neighbors entry.2.1).foldl (relaxU e entry.1 entry.2.2) (vis, rest)).1
        (n + 1)
termination_by (unvisCount e vis, visSum vis, fr.length)
decreasing_by
  rcases fold_measure_spec e (relaxU e entry.1 entry.2.2)
    (fun q vis2 fr2 hq => relaxU_step_spec e entry.1 entry.2.2 q
      ((mem_allValidPos e q).mp hq) vis2 fr2)
    (e.get_neighbors entry.2.1)
    (fun q hq => (mem_allValidPos e q).mpr (get_neighbors_valid e entry.2.1 q hq))
    vis rest with heq | hlt | ⟨heq2, hlt2⟩
  · rw [heq]
    apply Prod.Lex.right
    apply Prod.Lex.right
    show rest.length < fr.length
    have hlen := popMin_length uLt fr entry rest hp
    omega
  · apply Prod.Lex.left
    exact hlt
  · rw [heq2]
    apply Prod.Lex.right
    apply Prod.Lex.left
    exact hlt2

/-- Python `uniform_cost_search`: frontier seeded with `(0, start_pos, [start_pos])`,
visited seeded with `{start_pos: 0}`. -/
def uniform_cost_search (e : GridEnv) (start_pos goal_pos : Pos) : SearchResult :=
  uloop e goal_pos [(0, start_pos, [start_pos])] [(start_pos, 0)] 0

/-- Python `a_star_search`: frontier seeded with
`(0 + manhattan_distance(start_pos, goal_pos), 0, start_pos, [start_pos])`,
visited seeded with `{start_pos: 0}`. -/
def a_star_search (e : GridEnv) (start_pos goal_pos : Pos) : SearchResult :=
  hloop manhattan_distance e goal_pos
    [(0 + manhattan_distance start_pos goal_pos, 0, start_pos, [start_pos])]
    [(start_pos, 0)] 0

/-- Fuel-limited twin of `hloop` (structurally recursive, used to evaluate
concrete runs); returns `none` when the fuel runs out. -/
def hloopFuel (h : Pos → Pos → Nat) (e : GridEnv) (goal : Pos) :
    Nat → List AEntry → VMap → Nat → Option SearchResult
  | 0, _, _, _ => none
  | fuel + 1, fr, vis, n =>
    match popMin aLt fr with
    | none => some (none, ((-1 : Int) : CostZ), n)
    | some (entry, rest) =>
      if entry.2.2.1 = goal then some (some entry.2.2.2, zc entry.2.1, n + 1)
      else
        hloopFuel h e goal fuel
          ((e.get_neighbors entry.2.2.1).foldl (relaxH h e goal entry.2.1 entry.2.2.2) (vis, rest)).2
          ((e.get_neighbors entry.2.2.1).foldl (relaxH h e goal entry.2.1 entry.2.2.2) (vis, rest)).1
          (n + 1)

/-- Fuel-limited twin of `uloop`. -/
def uloopFuel (e : GridEnv) (goal : Pos) :
    Nat → List UEntry → VMap → Nat → Option SearchResult
  | 0, _, _, _ => none
  | fuel + 1, fr, vis, n =>
    match popMin uLt fr with
    | none => some (none, ((-1 : Int) : CostZ), n)
    | some (entry, rest) =>
      if entry.2.1 = goal then some (some entry.2.2, zc entry.1, n + 1)
      else
        uloopFuel e goal fuel
          ((e.get_neighbors entry.2.1).foldl (relaxU e entry.1 entry.2.2) (vis, rest)).2
          ((e.get_neighbors entry.2.1).foldl (relaxU e entry.1 entry.2.2) (vis, rest)).1
          (n + 1)

/-- The walk loop of `local_search_replanning`.  The Python `for i in
range(len(path) - 1)` loop runs a number of iterations fixed before the loop
starts (reassigning the loop variable `i` inside the body has no effect on a
Python range loop, and reassigning `path` does not change the iteration
count); `k` is the number of remaining iterations and `i` the current index.
Python indexes `path[i]` and `path[i+1]` directly (an out-of-range index would
raise); the model totalises those lookups with a default. -/
def replanLoop (goal : Pos) : Nat → Nat → GridEnv → List Pos → CostZ → Nat → SearchResult
  | 0, _, _, path, tc, tn => (some path, tc, tn)
  | k + 1, i, e, path, tc, tn =>
    let current_pos := path.getD i (0, 0)
    let next_pos := path.getD (i + 1) (0, 0)
    if e.is_dynamic_obstacle_at next_pos (i + 1) then
      let e2 := e.update_grid_with_obstacle next_pos
      match a_star_search e2 current_pos goal with
      | (some new_path, new_cost, new_expanded) =>
        if new_path.isEmpty then (none, ((-1 : Int) : CostZ), tn)
        else
          replanLoop goal k (i + 1) e2 (path.take i ++ new_path)
            (tc + new_cost + nzc (e2.get_cost next_pos)) (tn + new_expanded)
      | (none, _, _) => (none, ((-1 : Int) : CostZ), tn)
    else
      replanLoop goal k (i + 1) e path (tc + nzc (e.get_cost next_pos)) tn

/-- Python `local_search_replanning`: plan with A*, then walk the path,
replanning from the current position when a dynamic obstacle triggers on the
next position.  Mirrors the source exactly, including the accounting in the
walk loop (the initial `path_cost` is discarded; `total_path_cost` starts at 0). -/
def local_search_replanning (e : GridEnv) (start_pos goal_pos : Pos) : SearchResult :=
  match a_star_search e start_pos goal_pos with
  | (none, _, nodes_expanded) => (none, ((-1 : Int) : CostZ), nodes_expanded)
  | (some path, _, nodes_expanded) =>
    if path.isEmpty then (none, ((-1 : Int) : CostZ), nodes_expanded)
    else replanLoop goal_pos (path.length - 1) 0 e path 0 nodes_expanded

/-- Fuel twin of `replanLoop` that runs the inner A* searches with `hloopFuel`
(used to evaluate concrete runs). -/
def replanLoopFuel (goal : Pos) (F : Nat) :
    Nat → Nat → GridEnv → List Pos → CostZ → Nat → Option SearchResult
  | 0, _, _, path, tc, tn => some (some path, tc, tn)
  | k + 1, i, e, path, tc, tn =>
    let current_pos := path.getD i (0, 0)
    let next_pos := path.getD (i + 1) (0, 0)
    if e.is_dynamic_obstacle_at next_pos (i + 1) then
      let e2 := e.update_grid_with_obstacle next_pos
      match hloopFuel manhattan_distance e2 goal F
          [(0 + manhattan_distance current_pos goal, 0, current_pos, [current_pos])]
          [(current_pos, 0)] 0 with
      | none => none
      | some (some new_path, new_cost, new_expanded) =>
        if new_path.isEmpty then some (none, ((-1 : Int) : CostZ), tn)
        else
          replanLoopFuel goal F k (i + 1) e2 (path.take i ++ new_path)
            (tc + new_cost + nzc (e2.get_cost next_pos)) (tn + new_expanded)
      | some (none, _, _) => some (none, ((-1 : Int) : CostZ), tn)
    else
      replanLoopFuel goal F k (i + 1) e path (tc + nzc (e.get_cost next_pos)) tn

/-- Fuel twin of `local_search_replanning`. -/
def local_search_replanningFuel (F : Nat) (e : GridEnv) (start_pos goal_pos : Pos) :
    Option SearchResult :=
  match hloopFuel manhattan_distance e goal_pos F
      [(0 + manhattan_distance start_pos goal_pos, 0, start_pos, [start_pos])]
      [(start_pos, 0)] 0 with
  | none => none
  | some (none, _, nodes_expanded) => some (none, ((-1 : Int) : CostZ), nodes_expanded)
  | some (some path, _, nodes_expanded) =>
    if path.isEmpty then some (none, ((-1 : Int) : CostZ), nodes_expanded)
    else replanLoopFuel goal_pos F (path.length - 1) 0 e path 0 nodes_expanded

/-- Modelled from the spec: the walk loop as the specification describes it
("If a new path is found, splice it in place of the remaining suffix of the
old path and resume walking from the start of the spliced segment (the walk
index must restart at the beginning of the newly spliced path)").  After a
successful replan the walk restarts at index 0 of the spliced path and does
not enter the invalidated position; `fuel` bounds the total number of walk
steps and `F` the iterations of each inner search (both are chosen generously
at the call site, so neither bound is hit in the scenarios considered). -/
def replanRestartLoop (goal : Pos) (F : Nat) :
    Nat → Nat → GridEnv → List Pos → CostZ → Nat → SearchResult
  | 0, _, _, _, _, tn => (none, ((-1 : Int) : CostZ), tn)
  | fuel + 1, i, e, path, tc, tn =>
    if i + 1 < path.length then
      let current_pos := path.getD i (0, 0)
      let next_pos := path.getD (i + 1) (0, 0)
      if e.is_dynamic_obstacle_at next_pos (i + 1) then
        let e2 := e.update_grid_with_obstacle next_pos
        match hloopFuel manhattan_distance e2 goal F
            [(0 + manhattan_distance current_pos goal, 0, current_pos, [current_pos])]
            [(current_pos, 0)] 0 with
        | some (some new_path, new_cost, new_expanded) =>
          replanRestartLoop goal F fuel 0 e2 (path.take i ++ new_path)
            (tc + new_cost) (tn + new_expanded)
        | some (none, _, new_expanded) => (none, ((-1 : Int) : CostZ), tn + new_expanded)
        | none => (none, ((-1 : Int) : CostZ), tn)
      else
        replanRestartLoop goal F fuel (i + 1) e path (tc + nzc (e.get_cost next_pos)) tn
    else (some path, tc, tn)

/-- Modelled from the spec: dynamic replanning with the restart-on-splice walk
of `replanRestartLoop`. -/
def local_search_replanning_restart (e : GridEnv) (start_pos goal_pos : Pos) : SearchResult :=
  match hloopFuel manhattan_distance e goal_pos ((e.height * e.width + 1) * (e.height * e.width + 1))
      [(0 + manhattan_distance start_pos goal_pos, 0, start_pos, [start_pos])]
      [(start_pos, 0)] 0 with
  | some (none, _, nodes_expanded) => (none, ((-1 : Int) : CostZ), nodes_expanded)
  | none => (none, ((-1 : Int) : CostZ), 0)
  | some (some path, _, nodes_expanded) =>
    replanRestartLoop goal_pos ((e.height * e.width + 1) * (e.height * e.width + 1))
      ((e.dynamicObstacles.length + 1) * (path.length + e.height * e.width + 1))
      0 e path 0 nodes_expanded

/-- A path in the sense of the specification: a nonempty position sequence
from `s` to `t` in which every step goes to a `get_neighbors` successor
(hence every position after the first is in-bounds and passable). -/
def IsPath (e : GridEnv) (s t : Pos) (l : List Pos) : Prop :=
  l.head? = some s ∧ l.getLast? = some t ∧ List.Chain' (fun a b => b ∈ e.get_neighbors a) l

/-- Cost of a path: the sum of the cell costs of every position after the
first, valued in `WithTop Nat`. -/
def pathCostE (e : GridEnv) (l : List Pos) : Cost := (l.tail.map e.get_cost).sum

theorem hloopFuel_agree (h : Pos → Pos → Nat) (e : GridEnv) (goal : Pos) :
    ∀ (k : Nat) (fr : List AEntry) (vis : VMap) (n : Nat) (r : SearchResult),
      hloopFuel h e goal k fr vis n = some r → hloop h e goal fr vis n = r := by
  intro k
  induction k with
  | zero => intro fr vis n r hr; simp [hloopFuel] at hr
  | succ k ih =>
    intro fr vis n r hr
    rw [hloop.eq_def]
    simp only [hloopFuel] at hr
    cases hp : popMin aLt fr with
    | none =>
      rw [hp] at hr
      simp at hr
      simp [← hr]
    | some p =>
      obtain ⟨entry, rest⟩ := p
      rw [hp] at hr
      simp only at hr ⊢
      by_cases hg : entry.2.2.1 = goal
      · simp [hg] at hr ⊢
        exact hr
      · simp only [if_neg hg] at hr ⊢
        exact ih _ _ _ _ hr

theorem uloopFuel_agree (e : GridEnv) (goal : Pos) :
    ∀ (k : Nat) (fr : List UEntry) (vis : VMap) (n : Nat) (r : SearchResult),
      uloopFuel e goal k fr vis n = some r → uloop e goal fr vis n = r := by
  intro k
  induction k with
  | zero => intro fr vis n r hr; simp [uloopFuel] at hr
  | succ k ih =>
    intro fr vis n r hr
    rw [uloop.eq_def]
    simp only [uloopFuel] at hr
    cases hp : popMin uLt fr with
    | none =>
      rw [hp] at hr
      simp at hr
      simp [← hr]
    | some p =>
      obtain ⟨entry, rest⟩ := p
      rw [hp] at hr
      simp only at hr ⊢
      by_cases hg : entry.2.1 = goal
      · simp [hg] at hr ⊢
        exact hr
      · simp only [if_neg hg] at hr ⊢
        exact ih _ _ _ _ hr

theorem a_star_searchFuel_agree (e : GridEnv) (s g : Pos) (F : Nat) (r : SearchResult)
    (hr : hloopFuel manhattan_distance e g F
      [(0 + manhattan_distance s g, 0, s, [s])] [(s, 0)] 0 = some r) :
    a_star_search e s g = r :=
  hloopFuel_agree manhattan_distance e g F _ _ _ r hr

theorem uniform_cost_searchFuel_agree (e : GridEnv) (s g : Pos) (F : Nat) (r : SearchResult)
    (hr : uloopFuel e g F [(0, s, [s])] [(s, 0)] 0 = some r) :
    uniform_cost_search e s g = r :=
  uloopFuel_agree e g F _ _ _ r hr

theorem replanLoopFuel_agree (goal : Pos) (F : Nat) :
    ∀ (k i : Nat) (e : GridEnv) (path : List Pos) (tc : CostZ) (tn : Nat) (r : SearchResult),
      replanLoopFuel goal F k i e path tc tn = some r → replanLoop goal k i e path tc tn = r := by
  intro k
  induction k with
  | zero =>
    intro i e path tc tn r hr
    simp only [replanLoopFuel] at hr
    simp only [replanLoop]
    exact Option.some.inj hr
  | succ k ih =>
    intro i e path tc tn r hr
    simp only [replanLoopFuel] at hr
    simp only [replanLoop]
    by_cases htrig :
        e.is_dynamic_obstacle_at (path.getD (i + 1) (0, 0)) (i + 1) = true
    · simp only [htrig, if_true] at hr ⊢
      cases hinner : hloopFuel manhattan_distance
          (e.update_grid_with_obstacle (path.getD (i + 1) (0, 0))) goal F
          [(0 + manhattan_distance (path.getD i (0, 0)) goal, 0, path.getD i (0, 0),
            [path.getD i (0, 0)])]
          [(path.getD i (0, 0), 0)] 0 with
      | none => rw [hinner] at hr; simp at hr
      | some ra =>
        rw [hinner] at hr
        have hstar := a_star_searchFuel_agree
          (e.update_grid_with_obstacle (path.getD (i + 1) (0, 0)))
          (path.getD i (0, 0)) goal F ra hinner
        rw [hstar]
        obtain ⟨po, co, no⟩ := ra
        cases po with
        | none => simp at hr; simp [← hr]
        | some np =>
          simp only at hr ⊢
          by_cases hemp : np.isEmpty
          · simp [hemp] at hr ⊢; exact hr
          · simp only [hemp, if_false, Bool.false_eq_true] at hr ⊢
            exact ih _ _ _ _ _ _ hr
    · simp only [htrig] at hr ⊢
      simp only [Bool.false_eq_true, if_false] at hr ⊢
      exact ih _ _ _ _ _ _ hr

theorem local_search_replanningFuel_agree (e : GridEnv) (s g : Pos) (F : Nat)
    (r : SearchResult)
    (hr : local_search_replanningFuel F e s g = some r) :
    local_search_replanning e s g = r := by
  simp only [local_search_replanningFuel] at hr
  simp only [local_search_replanning]
  cases hinit : hloopFuel manhattan_distance e g F
      [(0 + manhattan_distance s g, 0, s, [s])] [(s, 0)] 0 with
  | none => rw [hinit] at hr; simp at hr
  | some ra =>
    rw [hinit] at hr
    have hstar := a_star_searchFuel_agree e s g F ra hinit
    rw [hstar]
    obtain ⟨po, co, no⟩ := ra
    cases po with
    | none => simp at hr; simp [← hr]
    | some p0 =>
      simp only at hr ⊢
      by_cases hemp : p0.isEmpty
      · simp [hemp] at hr ⊢; exact hr
      · simp only [hemp, if_false, Bool.false_eq_true] at hr ⊢
        exact replanLoopFuel_agree g F _ _ _ _ _ _ _ hr

/-- A row of n cells of cost 1. -/
def onesRow (n : Nat) : List Cost := List.replicate n 1

/-- Scenario grid: two rows of eight cost-1 cells, with a dynamic obstacle
registered at (0, 6); walking the straight path from (0,0) to (0,7) reaches
(0, 6) at time step 6 ≥ 5, and a detour through row 1 exists. -/
def gridTwoRows : GridEnv := { grid := [onesRow 8, onesRow 8], dynamicObstacles := [(0, 6)] }

/-- Scenario grid: a single corridor of eight cost-1 cells with a dynamic
obstacle registered at (0, 6); once the obstacle materialises no path remains. -/
def gridCorridor : GridEnv := { grid := [onesRow 8], dynamicObstacles := [(0, 6)] }

/-- Scenario grid: one row `1, ⊤, 1` — start and goal are separated by a wall. -/
def gridWall : GridEnv := { grid := [[1, ⊤, 1]], dynamicObstacles := [] }

/-- Scenario grid: a single passable cell and an empty obstacle registry. -/
def gridOne : GridEnv := { grid := [[1]], dynamicObstacles := [] }

/-- Scenario grid: 3×3 of cost-1 cells (Scenario A of the specification). -/
def gridThree : GridEnv :=
  { grid := [onesRow 3, onesRow 3, onesRow 3], dynamicObstacles := [] }

/-- Scenario grid: one row of two cost-1 cells. -/
def gridPair : GridEnv := { grid := [onesRow 2], dynamicObstacles := [] }

theorem update_nonmember (e : GridEnv) (p : Pos) (hp : p ∉ e.dynamicObstacles) :
    e.update_grid_with_obstacle p = e := by
  simp [GridEnv.update_grid_with_obstacle, hp]

theorem startGoal_hloopFuel (h : Pos → Pos → Nat) (e : GridEnv) (p : Pos) (f0 : Nat) :
    hloopFuel h e p 1 [(f0, 0, p, [p])] [(p, 0)] 0 = some (some [p], zc 0, 1) := by
  simp [hloopFuel, popMin]

theorem startGoal_uloopFuel (e : GridEnv) (p : Pos) :
    uloopFuel e p 1 [(0, p, [p])] [(p, 0)] 0 = some (some [p], zc 0, 1) := by
  simp [uloopFuel, popMin]

-- ===================================================================
-- Claim theorems
-- ===================================================================

/-- C10: for every environment and in-bounds, passable position `p`, both
`uniform_cost_search e p p` and `a_star_search e p p` return the path `[p]`,
cost 0, and one expanded node: the start == goal case returns immediately at
the first pop. -/
theorem claim_C10_start_eq_goal (e : GridEnv) (p : Pos)
    (hv : e.is_valid p = true) (hp : e.is_passable p = true) :
    uniform_cost_search e p p = (some [p], zc 0, 1) ∧
      a_star_search e p p = (some [p], zc 0, 1) := by
  constructor
  · exact uniform_cost_searchFuel_agree e p p 1 _ (startGoal_uloopFuel e p)
  · exact a_star_searchFuel_agree e p p 1 _ (startGoal_hloopFuel manhattan_distance e p _)

/-- Witness for C10 at a concrete environment and position. -/
theorem claim_C10_witness :
    (gridThree.is_valid (1, 1) = true ∧ gridThree.is_passable (1, 1) = true) ∧
      uniform_cost_search gridThree (1, 1) (1, 1) = (some [(1, 1)], zc 0, 1) ∧
      a_star_search gridThree (1, 1) (1, 1) = (some [(1, 1)], zc 0, 1) :=
  ⟨⟨by decide, by decide⟩, claim_C10_start_eq_goal gridThree (1, 1) (by decide) (by decide)⟩

/-- C9 counterexample: `update_grid_with_obstacle` at an in-bounds position
that is not a registered dynamic obstacle does not make it impassable — the
call is a no-op, contradicting the claim that after the call `is_passable`
returns false for every in-bounds position. -/
theorem claim_C9_counterexample :
    gridOne.is_valid (0, 0) = true ∧
      ¬ ((gridOne.update_grid_with_obstacle (0, 0)).is_passable (0, 0) = false) := by
  constructor
  · decide
  · decide

/-- C2 code evaluation: on `gridTwoRows` (straight route hits the registered
obstacle (0,6) at time step 6), the code splices the replanned path but the
Python `i = -1` assignment does not restart the `for i in range(...)` loop:
the walk continues from the old index and even accumulates the cost of the
invalidated cell (now infinite).  The spec-modelled restart walk
(`local_search_replanning_restart`) produces a different result on the same
input (finite cost 18), so the claimed restart behaviour does not hold of the
code. -/
theorem claim_C2_code_vs_restart :
    local_search_replanning gridTwoRows (0, 0) (0, 7)
        = (some [(0, 0), (0, 1), (0, 2), (0, 3), (0, 4), (0, 5), (1, 5), (1, 6), (1, 7), (0, 7)],
            (⊤ : CostZ), 14) ∧
      local_search_replanning_restart gridTwoRows (0, 0) (0, 7)
        = (some [(0, 0), (0, 1), (0, 2), (0, 3), (0, 4), (0, 5), (1, 5), (1, 6), (1, 7), (0, 7)],
            zc 18, 14) ∧
      (⊤ : CostZ) ≠ zc 18 := by
  refine ⟨?_, ?_, ?_⟩
  · exact local_search_replanningFuel_agree gridTwoRows (0, 0) (0, 7) 60 _ (by rfl)
  · rfl
  · decide

/-- C3 counterexample: on `gridTwoRows` the replanning run returns a path
whose reported cost is the infinite sentinel (the code adds `get_cost` of the
invalidated cell and the full replanned cost on top of the walked prefix),
while the sum of `get_cost` over the returned path after the first position is
the finite value 9. -/
theorem claim_C3_counterexample :
    local_search_replanning gridTwoRows (0, 0) (0, 7)
        = (some [(0, 0), (0, 1), (0, 2), (0, 3), (0, 4), (0, 5), (1, 5), (1, 6), (1, 7), (0, 7)],
            (⊤ : CostZ), 14) ∧
      nzc (pathCostE gridTwoRows
        [(0, 0), (0, 1), (0, 2), (0, 3), (0, 4), (0, 5), (1, 5), (1, 6), (1, 7), (0, 7)]) = zc 9 ∧
      (⊤ : CostZ) ≠ zc 9 := by
  refine ⟨?_, ?_, ?_⟩
  · exact local_search_replanningFuel_agree gridTwoRows (0, 0) (0, 7) 60 _ (by rfl)
  · decide
  · decide

/-- C6 counterexample: on `gridCorridor` the run performs exactly two search
invocations — the initial plan (8 expansions) and the failed replan
(6 expansions) — but returns `(none, -1, 8)`: the failed replan's expansions
are not included in the reported total, contradicting the claimed
`total = 8 + 6`. -/
theorem claim_C6_counterexample :
    local_search_replanning gridCorridor (0, 0) (0, 7) = (none, ((-1 : Int) : CostZ), 8) ∧
      a_star_search gridCorridor (0, 0) (0, 7)
        = (some [(0, 0), (0, 1), (0, 2), (0, 3), (0, 4), (0, 5), (0, 6), (0, 7)], zc 7, 8) ∧
      a_star_search (gridCorridor.update_grid_with_obstacle (0, 6)) (0, 5) (0, 7)
        = (none, ((-1 : Int) : CostZ), 6) ∧
      (8 : Nat) ≠ 8 + 6 := by
  refine ⟨?_, ?_, ?_, ?_⟩
  · exact local_search_replanningFuel_agree gridCorridor (0, 0) (0, 7) 60 _ (by rfl)
  · exact a_star_searchFuel_agree gridCorridor (0, 0) (0, 7) 60 _ (by rfl)
  · exact a_star_searchFuel_agree (gridCorridor.update_grid_with_obstacle (0, 6)) (0, 5) (0, 7)
      60 _ (by rfl)
  · decide

/-- C6 amended: when a dynamic obstacle triggers during the walk and the
re-invoked A* search finds no path, the run stops immediately with
`(none, -1, total)` where `total` is the expansion count accumulated so far
(the initial plan and any earlier successful replans); the failed replan's own
expansions are not added, and no further replan attempt is made. -/
theorem claim_C6_replan_failure (goal : Pos) (k i : Nat) (e : GridEnv) (path : List Pos)
    (tc : CostZ) (tn : Nat)
    (htrig : e.is_dynamic_obstacle_at (path.getD (i + 1) (0, 0)) (i + 1) = true)
    (hfail : (a_star_search (e.update_grid_with_obstacle (path.getD (i + 1) (0, 0)))
        (path.getD i (0, 0)) goal).1 = none) :
    replanLoop goal (k + 1) i e path tc tn = (none, ((-1 : Int) : CostZ), tn) := by
  simp only [replanLoop, htrig, if_true]
  rcases hres : a_star_search (e.update_grid_with_obstacle (path.getD (i + 1) (0, 0)))
      (path.getD i (0, 0)) goal with ⟨po, co, no⟩
  rw [hres] at hfail
  simp only at hfail
  subst hfail
  simp

/-- Witness for the amended C6 at the corridor scenario. -/
theorem claim_C6_replan_failure_witness :
    (gridCorridor.is_dynamic_obstacle_at
        ([(0, 0), (0, 1), (0, 2), (0, 3), (0, 4), (0, 5), (0, 6), (0, 7)].getD (5 + 1) ((0 : Int), (0 : Int)))
        (5 + 1) = true ∧
      (a_star_search (gridCorridor.update_grid_with_obstacle
          ([(0, 0), (0, 1), (0, 2), (0, 3), (0, 4), (0, 5), (0, 6), (0, 7)].getD (5 + 1) ((0 : Int), (0 : Int))))
        ([(0, 0), (0, 1), (0, 2), (0, 3), (0, 4), (0, 5), (0, 6), (0, 7)].getD 5 ((0 : Int), (0 : Int)))
        (0, 7)).1 = none) ∧
      replanLoop (0, 7) (1 + 1) 5 gridCorridor
        [(0, 0), (0, 1), (0, 2), (0, 3), (0, 4), (0, 5), (0, 6), (0, 7)] (zc 5) 8
        = (none, ((-1 : Int) : CostZ), 8) := by
  have hfail : (a_star_search (gridCorridor.update_grid_with_obstacle
      ([(0, 0), (0, 1), (0, 2), (0, 3), (0, 4), (0, 5), (0, 6), (0, 7)].getD (5 + 1) ((0 : Int), (0 : Int))))
      ([(0, 0), (0, 1), (0, 2), (0, 3), (0, 4), (0, 5), (0, 6), (0, 7)].getD 5 ((0 : Int), (0 : Int)))
      (0, 7)).1 = none := by
    rw [a_star_searchFuel_agree _ _ _ 60 (none, ((-1 : Int) : CostZ), 6) (by rfl)]
  exact ⟨⟨by decide, hfail⟩,
    claim_C6_replan_failure (0, 7) 1 5 gridCorridor _ (zc 5) 8 (by decide) hfail⟩

theorem lgetD_set_self {A : Type} (l : List A) (i : Nat) (v d : A) (h : i < l.length) :
    (l.set i v).getD i d = v := by
  rw [List.getD_eq_getElem?_getD, List.getElem?_set_self h, Option.getD_some]

theorem lgetD_set_ne {A : Type} (l : List A) (i j : Nat) (v d : A) (h : i ≠ j) :
    (l.set i v).getD j d = l.getD j d := by
  rw [List.getD_eq_getElem?_getD, List.getElem?_set_ne h, ← List.getD_eq_getElem?_getD]

theorem lgetD_of_length_le {A : Type} (l : List A) (i : Nat) (d : A) (h : l.length ≤ i) :
    l.getD i d = d := by
  rw [List.getD_eq_getElem?_getD, List.getElem?_eq_none h]
  rfl

theorem get_cost_update_self (e : GridEnv) (p : Pos)
    (hmem : p ∈ e.dynamicObstacles) (hv : e.is_valid p = true) :
    (e.update_grid_with_obstacle p).get_cost p = ⊤ := by
  simp only [GridEnv.is_valid, decide_eq_true_eq] at hv
  obtain ⟨h1, h2, h3, h4⟩ := hv
  have hy : p.1.toNat < e.grid.length := by
    simp only [GridEnv.height] at h2
    omega
  simp only [GridEnv.update_grid_with_obstacle, if_pos hmem, GridEnv.get_cost]
  rw [lgetD_set_self _ _ _ _ hy]
  by_cases hx : p.2.toNat < (e.grid.getD p.1.toNat []).length
  · rw [lgetD_set_self _ _ _ _ hx]
  · rw [List.set_eq_of_length_le (by omega), lgetD_of_length_le _ _ _ (by omega)]

theorem update_idem (e : GridEnv) (p : Pos) :
    (e.update_grid_with_obstacle p).update_grid_with_obstacle p
      = e.update_grid_with_obstacle p := by
  by_cases hmem : p ∈ e.dynamicObstacles
  · simp only [GridEnv.update_grid_with_obstacle, if_pos hmem]
    by_cases hy : p.1.toNat < e.grid.length
    · have hy2 : p.1.toNat < (e.grid.set p.1.toNat
          ((e.grid.getD p.1.toNat []).set p.2.toNat ⊤)).length := by
        rw [List.length_set]
        exact hy
      rw [lgetD_set_self _ _ _ _ hy, List.set_set, List.set_set]
    · have h0 : e.grid.set p.1.toNat ((e.grid.getD p.1.toNat []).set p.2.toNat ⊤) = e.grid :=
        List.set_eq_of_length_le (by omega)
      simp only [h0]
  · simp only [GridEnv.update_grid_with_obstacle, if_neg hmem]

theorem get_cost_update_frame (e : GridEnv) (p q : Pos)
    (hvp : e.is_valid p = true) (hvq : e.is_valid q = true) (hne : q ≠ p) :
    (e.update_grid_with_obstacle p).get_cost q = e.get_cost q := by
  by_cases hmem : p ∈ e.dynamicObstacles
  · simp only [GridEnv.is_valid, decide_eq_true_eq] at hvp hvq
    obtain ⟨hp1, hp2, hp3, hp4⟩ := hvp
    obtain ⟨hq1, hq2, hq3, hq4⟩ := hvq
    simp only [GridEnv.update_grid_with_obstacle, if_pos hmem, GridEnv.get_cost]
    by_cases hyy : p.1.toNat = q.1.toNat
    · have hccoord : q.1 = p.1 := by omega
      have hx : q.2 ≠ p.2 := by
        intro hc
        exact hne (Prod.ext_iff.mpr ⟨hccoord, hc⟩)
      have hxx : p.2.toNat ≠ q.2.toNat := by omega
      rw [hyy, lgetD_set_self _ _ _ _ (by simp only [GridEnv.height] at hq2; omega)]
      rw [lgetD_set_ne _ _ _ _ _ hxx]
    · rw [lgetD_set_ne _ _ _ _ _ hyy]
  · rw [update_nonmember e p hmem]

/-- C9 amended: for every in-bounds position `pos` that is registered in the
dynamic-obstacle registry, `update_grid_with_obstacle pos` sets its cost to the
impassable sentinel (`is_passable pos` becomes false), the operation is
idempotent, and the cost of every other in-bounds cell is unchanged (for a
position not in the registry the call is a no-op, as shown by the
counterexample). -/
theorem claim_C9_mark_impassable (e : GridEnv) (p : Pos)
    (hmem : p ∈ e.dynamicObstacles) (hv : e.is_valid p = true) :
    (e.update_grid_with_obstacle p).get_cost p = ⊤ ∧
      (e.update_grid_with_obstacle p).is_passable p = false ∧
      (e.update_grid_with_obstacle p).update_grid_with_obstacle p
        = e.update_grid_with_obstacle p ∧
      ∀ q : Pos, e.is_valid q = true → q ≠ p →
        (e.update_grid_with_obstacle p).get_cost q = e.get_cost q := by
  refine ⟨get_cost_update_self e p hmem hv, ?_, update_idem e p, ?_⟩
  · simp [GridEnv.is_passable, get_cost_update_self e p hmem hv]
  · intro q hvq hne
    exact get_cost_update_frame e p q hv hvq hne

/-- Witness for the amended C9 on the corridor grid at its registered obstacle. -/
theorem claim_C9_mark_impassable_witness :
    ((0, 6) ∈ gridCorridor.dynamicObstacles ∧ gridCorridor.is_valid (0, 6) = true) ∧
      (gridCorridor.update_grid_with_obstacle (0, 6)).get_cost (0, 6) = ⊤ ∧
      (gridCorridor.update_grid_with_obstacle (0, 6)).is_passable (0, 6) = false ∧
      (gridCorridor.update_grid_with_obstacle (0, 6)).update_grid_with_obstacle (0, 6)
        = gridCorridor.update_grid_with_obstacle (0, 6) ∧
      ∀ q : Pos, gridCorridor.is_valid q = true → q ≠ (0, 6) →
        (gridCorridor.update_grid_with_obstacle (0, 6)).get_cost q
          = gridCorridor.get_cost q :=
  ⟨⟨by decide, by decide⟩, claim_C9_mark_impassable gridCorridor (0, 6) (by decide) (by decide)⟩

theorem posLt_irrefl (a : Pos) : posLt a a = false := by
  simp [posLt]

theorem posLt_trans (a b c : Pos) (h1 : posLt a b = true) (h2 : posLt b c = true) :
    posLt a c = true := by
  simp only [posLt, Bool.or_eq_true, Bool.and_eq_true, decide_eq_true_eq] at h1 h2 ⊢
  omega

theorem posLt_true_of_lt1 (a b : Pos) (h : a.1 < b.1) : posLt a b = true := by
  simp only [posLt, Bool.or_eq_true, decide_eq_true_eq]
  exact Or.inl h

theorem posLt_true_of_lt2 (a b : Pos) (h1 : a.1 = b.1) (h : a.2 < b.2) : posLt a b = true := by
  simp only [posLt, Bool.or_eq_true, Bool.and_eq_true, decide_eq_true_eq]
  exact Or.inr ⟨h1, h⟩

theorem posLt_connect (a b : Pos) (h1 : posLt a b = false) (h2 : posLt b a = false) :
    a = b := by
  rcases Int.lt_trichotomy a.1 b.1 with h | e1 | h
  · rw [posLt_true_of_lt1 a b h] at h1
    exact absurd h1 (by simp)
  · rcases Int.lt_trichotomy a.2 b.2 with h | e2 | h
    · rw [posLt_true_of_lt2 a b e1 h] at h1
      exact absurd h1 (by simp)
    · exact Prod.ext_iff.mpr ⟨e1, e2⟩
    · rw [posLt_true_of_lt2 b a e1.symm h] at h2
      exact absurd h2 (by simp)
  · rw [posLt_true_of_lt1 b a h] at h2
    exact absurd h2 (by simp)

theorem plistLt_irrefl (l : List Pos) : plistLt l l = false := by
  induction l with
  | nil => rfl
  | cons a as ih => simp [plistLt, posLt_irrefl, ih]

theorem plistLt_trans : ∀ (a b c : List Pos), plistLt a b = true → plistLt b c = true →
    plistLt a c = true := by
  intro a
  induction a with
  | nil =>
    intro b c h1 h2
    cases b with
    | nil => simp [plistLt] at h1
    | cons y ys =>
      cases c with
      | nil => simp [plistLt] at h2
      | cons z zs => simp [plistLt]
  | cons x xs ih =>
    intro b c h1 h2
    cases b with
    | nil => simp [plistLt] at h1
    | cons y ys =>
      cases c with
      | nil => simp [plistLt] at h2
      | cons z zs =>
        simp only [plistLt, Bool.or_eq_true, Bool.and_eq_true, decide_eq_true_eq] at h1 h2 ⊢
        rcases h1 with h1 | ⟨h1, h1'⟩
        · rcases h2 with h2 | ⟨h2, h2'⟩
          · exact Or.inl (posLt_trans x y z h1 h2)
          · exact Or.inl (h2 ▸ h1)
        · rcases h2 with h2 | ⟨h2, h2'⟩
          · exact Or.inl (h1 ▸ h2)
          · exact Or.inr ⟨h1.trans h2, ih ys zs h1' h2'⟩

theorem plistLt_connect : ∀ (a b : List Pos), plistLt a b = false → plistLt b a = false →
    a = b := by
  intro a
  induction a with
  | nil =>
    intro b h1 h2
    cases b with
    | nil => rfl
    | cons y ys => simp [plistLt] at h1
  | cons x xs ih =>
    intro b h1 h2
    cases b with
    | nil => simp [plistLt] at h2
    | cons y ys =>
      simp only [plistLt, Bool.or_eq_false_iff, Bool.and_eq_false_iff,
        decide_eq_false_iff_not, decide_eq_true_eq] at h1 h2
      obtain ⟨hp1, hr1⟩ := h1
      obtain ⟨hp2, hr2⟩ := h2
      have hxy : x = y := posLt_connect x y hp1 hp2
      subst hxy
      have hxs : xs = ys := by
        apply ih
        · rcases hr1 with h | h
          · exact absurd rfl h
          · exact h
        · rcases hr2 with h | h
          · exact absurd rfl h
          · exact h
      rw [hxs]

theorem aLt_irrefl (x : AEntry) : aLt x x = false := by
  simp [aLt, posLt_irrefl, plistLt_irrefl]

theorem aLt_trans (x y z : AEntry) (h1 : aLt x y = true) (h2 : aLt y z = true) :
    aLt x z = true := by
  simp only [aLt, Bool.or_eq_true, Bool.and_eq_true, decide_eq_true_eq] at h1 h2 ⊢
  rcases h1 with h1 | ⟨e1, h1⟩
  · rcases h2 with h2 | ⟨e2, h2⟩
    · exact Or.inl (h1.trans h2)
    · exact Or.inl (e2 ▸ h1)
  · rcases h2 with h2 | ⟨e2, h2⟩
    · exact Or.inl (e1 ▸ h2)
    · refine Or.inr ⟨e1.trans e2, ?_⟩
      rcases h1 with h1 | ⟨f1, h1⟩
      · rcases h2 with h2 | ⟨f2, h2⟩
        · exact Or.inl (h1.trans h2)
        · exact Or.inl (f2 ▸ h1)
      · rcases h2 with h2 | ⟨f2, h2⟩
        · exact Or.inl (f1 ▸ h2)
        · refine Or.inr ⟨f1.trans f2, ?_⟩
          rcases h1 with h1 | ⟨g1, h1⟩
          · rcases h2 with h2 | ⟨g2, h2⟩
            · exact Or.inl (posLt_trans _ _ _ h1 h2)
            · exact Or.inl (g2 ▸ h1)
          · rcases h2 with h2 | ⟨g2, h2⟩
            · exact Or.inl (g1 ▸ h2)
            · exact Or.inr ⟨g1.trans g2, plistLt_trans _ _ _ h1 h2⟩

theorem aLt_true_1 (x y : AEntry) (h : x.1 < y.1) : aLt x y = true := by
  simp only [aLt, Bool.or_eq_true, decide_eq_true_eq]
  exact Or.inl h

theorem aLt_true_2 (x y : AEntry) (e1 : x.1 = y.1) (h : x.2.1 < y.2.1) : aLt x y = true := by
  simp only [aLt, Bool.or_eq_true, Bool.and_eq_true, decide_eq_true_eq]
  exact Or.inr ⟨e1, Or.inl h⟩

theorem aLt_true_3 (x y : AEntry) (e1 : x.1 = y.1) (e2 : x.2.1 = y.2.1)
    (h : posLt x.2.2.1 y.2.2.1 = true) : aLt x y = true := by
  simp only [aLt, Bool.or_eq_true, Bool.and_eq_true, decide_eq_true_eq]
  exact Or.inr ⟨e1, Or.inr ⟨e2, Or.inl h⟩⟩

theorem aLt_true_4 (x y : AEntry) (e1 : x.1 = y.1) (e2 : x.2.1 = y.2.1)
    (e3 : x.2.2.1 = y.2.2.1) (h : plistLt x.2.2.2 y.2.2.2 = true) : aLt x y = true := by
  simp only [aLt, Bool.or_eq_true, Bool.and_eq_true, decide_eq_true_eq]
  exact Or.inr ⟨e1, Or.inr ⟨e2, Or.inr ⟨e3, h⟩⟩⟩

theorem aLt_connect (x y : AEntry) (h1 : aLt x y = false) (h2 : aLt y x = false) :
    x = y := by
  rcases Nat.lt_trichotomy x.1 y.1 with h | e1 | h
  · rw [aLt_true_1 x y h] at h1
    exact absurd h1 (by simp)
  · rcases Nat.lt_trichotomy x.2.1 y.2.1 with h | e2 | h
    · rw [aLt_true_2 x y e1 h] at h1
      exact absurd h1 (by simp)
    · cases hp : posLt x.2.2.1 y.2.2.1 with
      | true =>
        rw [aLt_true_3 x y e1 e2 hp] at h1
        exact absurd h1 (by simp)
      | false =>
        cases hq : posLt y.2.2.1 x.2.2.1 with
        | true =>
          rw [aLt_true_3 y x e1.symm e2.symm hq] at h2
          exact absurd h2 (by simp)
        | false =>
          have e3 := posLt_connect _ _ hp hq
          cases hl : plistLt x.2.2.2 y.2.2.2 with
          | true =>
            rw [aLt_true_4 x y e1 e2 e3 hl] at h1
            exact absurd h1 (by simp)
          | false =>
            cases hm : plistLt y.2.2.2 x.2.2.2 with
            | true =>
              rw [aLt_true_4 y x e1.symm e2.symm e3.symm hm] at h2
              exact absurd h2 (by simp)
            | false =>
              have e4 := plistLt_connect _ _ hl hm
              exact Prod.ext_iff.mpr ⟨e1, Prod.ext_iff.mpr ⟨e2, Prod.ext_iff.mpr ⟨e3, e4⟩⟩⟩
    · rw [aLt_true_2 y x e1.symm h] at h2
      exact absurd h2 (by simp)
  · rw [aLt_true_1 y x h] at h2
    exact absurd h2 (by simp)

theorem popMin_perm {E : Type} (lt : E → E → Bool) :
    ∀ (l : List E) (m : E) (rest : List E), popMin lt l = some (m, rest) →
      l.Perm (m :: rest) := by
  intro l
  induction l with
  | nil => intro m rest h; simp [popMin] at h
  | cons e es ih =>
    intro m rest h
    simp only [popMin] at h
    cases hp : popMin lt es with
    | none =>
      rw [hp] at h
      have hes : es = [] := (popMin_none lt es).mp hp
      subst hes
      simp at h
      obtain ⟨h1, h2⟩ := h
      subst h1
      subst h2
      exact List.Perm.refl _
    | some p =>
      obtain ⟨m2, rest2⟩ := p
      rw [hp] at h
      have hperm := ih m2 rest2 hp
      by_cases hc : lt m2 e = true
      · simp [hc] at h
        obtain ⟨h1, h2⟩ := h
        subst h1
        subst h2
        exact (List.Perm.cons e hperm).trans (List.Perm.swap _ _ _)
      · simp [hc] at h
        obtain ⟨h1, h2⟩ := h
        subst h1
        subst h2
        exact List.Perm.refl _

theorem popMin_min {E : Type} (lt : E → E → Bool)
    (hirr : ∀ x : E, lt x x = false)
    (htr : ∀ x y z : E, lt x y = true → lt y z = true → lt x z = true)
    (hco : ∀ x y : E, lt x y = false → lt y x = false → x = y) :
    ∀ (l : List E) (m : E) (rest : List E), popMin lt l = some (m, rest) →
      ∀ x ∈ l, lt x m = false := by
  intro l
  induction l with
  | nil => intro m rest h; simp [popMin] at h
  | cons e es ih =>
    intro m rest h x hx
    simp only [popMin] at h
    cases hp : popMin lt es with
    | none =>
      rw [hp] at h
      have hes : es = [] := (popMin_none lt es).mp hp
      subst hes
      simp at h hx
      rw [hx, ← h.1]
      exact hirr e
    | some p =>
      obtain ⟨m2, rest2⟩ := p
      rw [hp] at h
      have hmin2 := ih m2 rest2 hp
      by_cases hc : lt m2 e = true
      · simp [hc] at h
        obtain ⟨h1, h2⟩ := h
        rw [← h1]
        rcases List.mem_cons.mp hx with hxe | hxs
        · rw [hxe]
          cases hb : lt e m2 with
          | false => rfl
          | true =>
            exfalso
            have hmm := htr m2 e m2 hc hb
            rw [hirr m2] at hmm
            exact Bool.false_ne_true hmm
        · exact hmin2 x hxs
      · have hc' : lt m2 e = false := by
          cases h2 : lt m2 e with
          | true => exact absurd h2 hc
          | false => rfl
        simp [hc] at h
        obtain ⟨h1, h2⟩ := h
        rw [← h1]
        rcases List.mem_cons.mp hx with hxe | hxs
        · rw [hxe]
          exact hirr e
        · cases hb : lt x e with
          | false => rfl
          | true =>
            exfalso
            cases hem : lt e m2 with
            | true =>
              have hxm2 := htr x e m2 hb hem
              rw [hmin2 x hxs] at hxm2
              exact Bool.false_ne_true hxm2
            | false =>
              have heq : m2 = e := hco m2 e hc' hem
              have hxm2 := hmin2 x hxs
              rw [heq] at hxm2
              rw [hxm2] at hb
              exact Bool.false_ne_true hb

theorem aLt_false_fst (x y : AEntry) (h : aLt x y = false) : y.1 ≤ x.1 := by
  simp only [aLt, Bool.or_eq_false_iff, decide_eq_false_iff_not] at h
  omega

theorem neighbor_passable (e : GridEnv) (p q : Pos) (hq : q ∈ e.get_neighbors p) :
    e.is_passable q = true := by
  simp only [GridEnv.get_neighbors, List.mem_filter] at hq
  exact (Bool.and_eq_true _ _ |>.mp hq.2).2

theorem get_cost_ne_top_of_passable (e : GridEnv) (q : Pos) (hq : e.is_passable q = true) :
    e.get_cost q ≠ ⊤ := by
  simpa [GridEnv.is_passable] using hq

theorem coe_costD_of_ne_top (c : Cost) (hc : c ≠ ⊤) : ((costD c : Nat) : Cost) = c := by
  obtain ⟨n, rfl⟩ := WithTop.ne_top_iff_exists.mp hc
  rfl

theorem coe_costD_neighbor (e : GridEnv) (p q : Pos) (hq : q ∈ e.get_neighbors p) :
    ((costD (e.get_cost q) : Nat) : Cost) = e.get_cost q :=
  coe_costD_of_ne_top _ (get_cost_ne_top_of_passable e q (neighbor_passable e p q hq))

theorem one_le_get_cost (e : GridEnv)
    (Hc : ∀ row ∈ e.grid, ∀ c ∈ row, (1 : Cost) ≤ c) (q : Pos) :
    (1 : Cost) ≤ e.get_cost q := by
  unfold GridEnv.get_cost
  by_cases hy : q.1.toNat < e.grid.length
  · have hrow : e.grid.getD q.1.toNat [] ∈ e.grid := by
      rw [List.getD_eq_getElem e.grid [] hy]
      exact List.getElem_mem hy
    rcases Nat.lt_or_ge q.2.toNat (e.grid.getD q.1.toNat []).length with hx | hx
    · have hc : (e.grid.getD q.1.toNat []).getD q.2.toNat ⊤ ∈ e.grid.getD q.1.toNat [] := by
        rw [List.getD_eq_getElem (e.grid.getD q.1.toNat []) ⊤ hx]
        exact List.getElem_mem hx
      exact Hc _ hrow _ hc
    · rw [lgetD_of_length_le (e.grid.getD q.1.toNat []) q.2.toNat ⊤ hx]
      exact le_top
  · rw [lgetD_of_length_le e.grid q.1.toNat [] (by omega)]
    rw [lgetD_of_length_le ([] : List Cost) q.2.toNat ⊤ (by simp)]
    exact le_top

/-- The position at index `j` of a path, totalised with a default. -/
def nthPos (P : List Pos) (j : Nat) : Pos := P.getD j (0, 0)

/-- Cost of the prefix of `P` up to and including index `j`. -/
def takeCost (e : GridEnv) (P : List Pos) (j : Nat) : Cost := pathCostE e (P.take (j + 1))

theorem IsPath_singleton (e : GridEnv) (s : Pos) : IsPath e s s [s] := by
  refine ⟨rfl, rfl, ?_⟩
  exact List.chain'_singleton s

theorem IsPath_ne_nil (e : GridEnv) (s t : Pos) (l : List Pos) (h : IsPath e s t l) :
    l ≠ [] := by
  intro hc
  subst hc
  simp [IsPath] at h

theorem IsPath_head (e : GridEnv) (s t : Pos) (l : List Pos) (h : IsPath e s t l) :
    l = s :: l.tail := by
  obtain ⟨h1, _, _⟩ := h
  cases l with
  | nil => simp at h1
  | cons a as =>
    simp at h1
    rw [h1]
    rfl

theorem IsPath_extend (e : GridEnv) (s p q : Pos) (l : List Pos)
    (h : IsPath e s p l) (hq : q ∈ e.get_neighbors p) : IsPath e s q (l ++ [q]) := by
  obtain ⟨h1, h2, h3⟩ := h
  refine ⟨?_, ?_, ?_⟩
  · cases l with
    | nil => simp at h1
    | cons a as => simpa using h1
  · simp [List.getLast?_concat]
  · rw [List.chain'_append]
    refine ⟨h3, List.chain'_singleton q, ?_⟩
    intro x hx y hy
    simp at hy
    subst hy
    rw [h2] at hx
    simp at hx
    subst hx
    exact hq

theorem pathCostE_singleton (e : GridEnv) (s : Pos) : pathCostE e [s] = 0 := rfl

theorem pathCostE_append_singleton (e : GridEnv) (l : List Pos) (q : Pos) (hl : l ≠ []) :
    pathCostE e (l ++ [q]) = pathCostE e l + e.get_cost q := by
  cases l with
  | nil => exact absurd rfl hl
  | cons a as =>
    show ((as ++ [q]).map e.get_cost).sum = (as.map e.get_cost).sum + e.get_cost q
    rw [List.map_append, List.sum_append]
    simp

theorem chain'_mem_of_mem_tail {R : Pos → Pos → Prop} :
    ∀ (a : Pos) (l : List Pos), List.Chain' R (a :: l) → ∀ x ∈ l, ∃ y, R y x := by
  intro a l
  induction l generalizing a with
  | nil => intro _ x hx; simp at hx
  | cons b bs ih =>
    intro hch x hx
    rw [List.chain'_cons] at hch
    rcases List.mem_cons.mp hx with hx | hx
    · subst hx
      exact ⟨a, hch.1⟩
    · exact ih b hch.2 x hx

theorem IsPath_mem (e : GridEnv) (s t : Pos) (l : List Pos) (h : IsPath e s t l) :
    ∀ x ∈ l, x = s ∨ (e.is_valid x = true ∧ e.is_passable x = true) := by
  intro x hx
  have hhead := IsPath_head e s t l h
  obtain ⟨_, _, h3⟩ := h
  rw [hhead] at hx h3
  rcases List.mem_cons.mp hx with hx | hx
  · exact Or.inl hx
  · right
    obtain ⟨y, hy⟩ := chain'_mem_of_mem_tail s l.tail h3 x hx
    exact ⟨get_neighbors_valid e y x hy, neighbor_passable e y x hy⟩

theorem nthPos_lt (P : List Pos) (j : Nat) (h : j < P.length) : nthPos P j = P[j] := by
  unfold nthPos
  exact List.getD_eq_getElem P (0, 0) h

theorem nthPos_zero (e : GridEnv) (s t : Pos) (P : List Pos) (h : IsPath e s t P) :
    nthPos P 0 = s := by
  rw [IsPath_head e s t P h]
  rfl

theorem nthPos_chain (e : GridEnv) (s t : Pos) (P : List Pos) (h : IsPath e s t P)
    (j : Nat) (hj : j + 1 < P.length) :
    nthPos P (j + 1) ∈ e.get_neighbors (nthPos P j) := by
  obtain ⟨_, _, h3⟩ := h
  have hstep := List.chain'_iff_get.mp h3 j (by omega)
  rw [nthPos_lt P j (by omega), nthPos_lt P (j + 1) hj]
  simpa using hstep

theorem nthPos_last (e : GridEnv) (s t : Pos) (P : List Pos) (h : IsPath e s t P) :
    nthPos P (P.length - 1) = t := by
  have hne := IsPath_ne_nil e s t P h
  obtain ⟨_, h2, _⟩ := h
  rw [List.getLast?_eq_getElem?] at h2
  have hlen : P.length - 1 < P.length := by
    cases P with
    | nil => exact absurd rfl hne
    | cons a as => simp
  rw [nthPos_lt P _ hlen]
  rw [List.getElem?_eq_getElem hlen] at h2
  exact Option.some.inj h2

theorem takeCost_zero (e : GridEnv) (s t : Pos) (P : List Pos) (h : IsPath e s t P) :
    takeCost e P 0 = 0 := by
  unfold takeCost
  rw [IsPath_head e s t P h]
  rfl

theorem take_nonempty (P : List Pos) (j : Nat) (h : 0 < P.length) : P.take (j + 1) ≠ [] := by
  cases P with
  | nil => simp at h
  | cons a as => simp [List.take_succ_cons]

theorem takeCost_succ (e : GridEnv) (P : List Pos) (j : Nat) (hj : j + 1 < P.length) :
    takeCost e P (j + 1) = takeCost e P j + e.get_cost (nthPos P (j + 1)) := by
  unfold takeCost
  rw [List.take_succ, List.getElem?_eq_getElem hj]
  rw [nthPos_lt P (j + 1) hj]
  show pathCostE e (P.take (j + 1) ++ [P[j + 1]]) = _
  rw [pathCostE_append_singleton e _ _ (take_nonempty P j (by omega))]

theorem IsPath_take (e : GridEnv) (s t : Pos) (P : List Pos) (h : IsPath e s t P)
    (j : Nat) (hj : j < P.length) : IsPath e s (nthPos P j) (P.take (j + 1)) := by
  obtain ⟨h1, h2, h3⟩ := h
  refine ⟨?_, ?_, ?_⟩
  · cases P with
    | nil => simp at hj
    | cons a as => simpa using h1
  · rw [List.getLast?_eq_getElem?]
    have hlen : (P.take (j + 1)).length = j + 1 := by
      simp
      omega
    rw [hlen]
    simp only [Nat.add_sub_cancel]
    rw [List.getElem?_take, if_pos (by omega : j < j + 1), nthPos_lt P j hj,
      List.getElem?_eq_getElem hj]
  · exact h3.take (j + 1)

theorem IsPath_drop (e : GridEnv) (s t : Pos) (P : List Pos) (h : IsPath e s t P)
    (j : Nat) (hj : j < P.length) : IsPath e (nthPos P j) t (P.drop j) := by
  obtain ⟨h1, h2, h3⟩ := h
  refine ⟨?_, ?_, ?_⟩
  · rw [List.head?_drop, nthPos_lt P j hj, List.getElem?_eq_getElem hj]
  · rw [List.getLast?_eq_getElem?] at h2 ⊢
    have hlen : (P.drop j).length = P.length - j := by simp
    rw [hlen]
    rw [List.getElem?_drop]
    have harith : j + (P.length - j - 1) = P.length - 1 := by omega
    rw [harith]
    exact h2
  · exact h3.drop j

theorem IsPath_splice (e : GridEnv) (s v t : Pos) (Q R : List Pos)
    (hQ : IsPath e s v Q) (hR : IsPath e v t R) : IsPath e s t (Q ++ R.tail) := by
  have hQne := IsPath_ne_nil e s v Q hQ
  have hRhead := IsPath_head e v t R hR
  obtain ⟨hq1, hq2, hq3⟩ := hQ
  obtain ⟨hr1, hr2, hr3⟩ := hR
  have hchR : List.Chain' (fun a b => b ∈ e.get_neighbors a) (v :: R.tail) := by
    rw [← hRhead]
    exact hr3
  have hlastR : (v :: R.tail).getLast? = some t := by
    rw [← hRhead]
    exact hr2
  cases hRt : R.tail with
  | nil =>
    rw [List.append_nil]
    rw [hRt] at hlastR
    simp at hlastR
    subst hlastR
    exact ⟨hq1, hq2, hq3⟩
  | cons w ws =>
    rw [hRt] at hchR hlastR
    refine ⟨?_, ?_, ?_⟩
    · rw [List.head?_append_of_ne_nil _ hQne]
      exact hq1
    · rw [List.getLast?_append_of_ne_nil _ (by simp)]
      simpa using hlastR
    · rw [List.chain'_append]
      refine ⟨hq3, (List.chain'_cons.mp hchR).2, ?_⟩
      intro x hx y hy
      rw [hq2] at hx
      simp at hx
      subst hx
      simp at hy
      subst hy
      exact (List.chain'_cons.mp hchR).1

theorem pathCostE_splice (e : GridEnv) (Q R : List Pos) (hQ : Q ≠ []) :
    pathCostE e (Q ++ R.tail) = pathCostE e Q + pathCostE e R := by
  cases Q with
  | nil => exact absurd rfl hQ
  | cons a as =>
    show ((as ++ R.tail).map e.get_cost).sum = (as.map e.get_cost).sum + (R.tail.map e.get_cost).sum
    rw [List.map_append, List.sum_append]

theorem takeCost_add_drop (e : GridEnv) (P : List Pos) (j : Nat) (hj : j < P.length) :
    takeCost e P j + pathCostE e (P.drop j) = pathCostE e P := by
  unfold takeCost
  cases P with
  | nil => simp at hj
  | cons p0 tl =>
    simp only [List.length_cons] at hj
    show pathCostE e (p0 :: tl.take j) + pathCostE e ((p0 :: tl).drop j) = pathCostE e (p0 :: tl)
    have hdt : ((p0 :: tl).drop j).tail = tl.drop j := by
      cases j with
      | zero => rfl
      | succ k =>
        show (tl.drop k).tail = tl.drop (k + 1)
        rw [← List.drop_drop]
        cases hd : tl.drop k with
        | nil => simp
        | cons b bs => simp
    show (((tl.take j).map e.get_cost).sum) + ((((p0 :: tl).drop j).tail).map e.get_cost).sum
        = (tl.map e.get_cost).sum
    rw [hdt, ← List.sum_append, ← List.map_append, List.take_append_drop]

theorem sum_ne_top (l : List Cost) (h : ∀ c ∈ l, c ≠ ⊤) : l.sum ≠ ⊤ := by
  induction l with
  | nil => simp
  | cons a as ih =>
    rw [List.sum_cons]
    rw [WithTop.add_ne_top]
    exact ⟨h a (List.mem_cons_self a as), ih (fun c hc => h c (List.mem_cons_of_mem a hc))⟩

theorem pathCostE_ne_top (e : GridEnv) (s t : Pos) (l : List Pos) (h : IsPath e s t l) :
    pathCostE e l ≠ ⊤ := by
  apply sum_ne_top
  intro c hc
  rw [List.mem_map] at hc
  obtain ⟨x, hx, rfl⟩ := hc
  have hhead := IsPath_head e s t l h
  obtain ⟨_, _, h3⟩ := h
  rw [hhead] at h3
  obtain ⟨y, hy⟩ := chain'_mem_of_mem_tail s l.tail h3 x hx
  exact get_cost_ne_top_of_passable e x (neighbor_passable e y x hy)

theorem takeCost_ne_top (e : GridEnv) (s t : Pos) (P : List Pos) (h : IsPath e s t P)
    (j : Nat) (hj : j < P.length) : takeCost e P j ≠ ⊤ :=
  pathCostE_ne_top e s (nthPos P j) (P.take (j + 1)) (IsPath_take e s t P h j hj)

theorem coe_le_takeCost (e : GridEnv) (s t : Pos) (P : List Pos)
    (Hc : ∀ q : Pos, (1 : Cost) ≤ e.get_cost q) (h : IsPath e s t P) :
    ∀ j : Nat, j < P.length → ((j : Nat) : Cost) ≤ takeCost e P j := by
  intro j
  induction j with
  | zero =>
    intro hj
    rw [takeCost_zero e s t P h]
    simp
  | succ k ih =>
    intro hj
    rw [takeCost_succ e P k hj]
    have h1 := ih (by omega)
    have h2 := Hc (nthPos P (k + 1))
    calc ((k + 1 : Nat) : Cost) = ((k : Nat) : Cost) + ((1 : Nat) : Cost) := by
          norm_cast
      _ ≤ takeCost e P k + e.get_cost (nthPos P (k + 1)) := by
          apply add_le_add h1
          simpa using h2

theorem prefix_optimal (e : GridEnv) (s goal : Pos) (P : List Pos)
    (HP : IsPath e s goal P)
    (HPopt : ∀ l, IsPath e s goal l → pathCostE e P ≤ pathCostE e l)
    (j : Nat) (hj : j < P.length) :
    ∀ l, IsPath e s (nthPos P j) l → takeCost e P j ≤ pathCostE e l := by
  intro l hl
  have hdrop := IsPath_drop e s goal P HP j hj
  have hsplice := IsPath_splice e s (nthPos P j) goal l (P.drop j) hl hdrop
  have hopt := HPopt _ hsplice
  rw [pathCostE_splice e l (P.drop j) (IsPath_ne_nil e s (nthPos P j) l hl)] at hopt
  rw [← takeCost_add_drop e P j hj] at hopt
  have hfin : pathCostE e (P.drop j) ≠ ⊤ :=
    pathCostE_ne_top e (nthPos P j) goal (P.drop j) hdrop
  exact WithTop.le_of_add_le_add_right hfin hopt

theorem exists_optimal_path (e : GridEnv) (s goal : Pos)
    (hr : ∃ l, IsPath e s goal l) :
    ∃ P, IsPath e s goal P ∧ ∀ l, IsPath e s goal l → pathCostE e P ≤ pathCostE e l := by
  obtain ⟨l0, hl0⟩ := hr
  have hfin : pathCostE e l0 ≠ ⊤ := pathCostE_ne_top e s goal l0 hl0
  obtain ⟨n0, hn0⟩ := WithTop.ne_top_iff_exists.mp hfin
  have hS : {n : Nat | ∃ l, IsPath e s goal l ∧ pathCostE e l = ((n : Nat) : Cost)}.Nonempty :=
    ⟨n0, l0, hl0, hn0.symm⟩
  obtain ⟨P, hP, hPc⟩ := Nat.sInf_mem hS
  refine ⟨P, hP, ?_⟩
  intro l hl
  have hlfin : pathCostE e l ≠ ⊤ := pathCostE_ne_top e s goal l hl
  obtain ⟨m, hm⟩ := WithTop.ne_top_iff_exists.mp hlfin
  have hmmem : m ∈ {n : Nat | ∃ l, IsPath e s goal l ∧ pathCostE e l = ((n : Nat) : Cost)} :=
    ⟨l, hl, hm.symm⟩
  have hle := Nat.sInf_le hmmem
  rw [hPc, ← hm]
  exact WithTop.coe_le_coe.mpr hle

/-- The accumulated cost pushed for a neighbor `q` from a node with
accumulated cost `g` (`new_cost = cost + move_cost` in the source). -/
def newCostOf (e : GridEnv) (g : Nat) (q : Pos) : Nat := g + costD (e.get_cost q)

/-- The frontier entry pushed for neighbor `q` by `a_star_search`'s loop body. -/
def newEntryOf (h : Pos → Pos → Nat) (e : GridEnv) (goal : Pos) (g : Nat) (path : List Pos)
    (q : Pos) : AEntry :=
  (newCostOf e g q + h q goal, newCostOf e g q, q, path ++ [q])

theorem relaxH_lookup_ne (h : Pos → Pos → Nat) (e : GridEnv) (goal : Pos) (g : Nat)
    (path : List Pos) (q0 : Pos) (vis : VMap) (fr : List AEntry) (q : Pos) (hq : q ≠ q0) :
    vlookup (relaxH h e goal g path (vis, fr) q0).1 q = vlookup vis q := by
  simp only [relaxH]
  cases hl : vlookup vis q0 with
  | none => exact vlookup_vupdate_ne vis q0 _ q hq
  | some old =>
    by_cases hlt : g + costD (e.get_cost q0) < old
    · simp only [if_pos hlt]
      exact vlookup_vupdate_ne vis q0 _ q hq
    · simp only [if_neg hlt]

theorem relaxH_fr_mono (h : Pos → Pos → Nat) (e : GridEnv) (goal : Pos) (g : Nat)
    (path : List Pos) (q0 : Pos) (vis : VMap) (fr : List AEntry) (en : AEntry)
    (hen : en ∈ fr) : en ∈ (relaxH h e goal g path (vis, fr) q0).2 := by
  simp only [relaxH]
  cases hl : vlookup vis q0 with
  | none => exact List.mem_append_left _ hen
  | some old =>
    by_cases hlt : g + costD (e.get_cost q0) < old
    · simp only [if_pos hlt]
      exact List.mem_append_left _ hen
    · simp only [if_neg hlt]
      exact hen

theorem relaxH_fr_new (h : Pos → Pos → Nat) (e : GridEnv) (goal : Pos) (g : Nat)
    (path : List Pos) (q0 : Pos) (vis : VMap) (fr : List AEntry) (en : AEntry)
    (hen : en ∈ (relaxH h e goal g path (vis, fr) q0).2) :
    en ∈ fr ∨ en = newEntryOf h e goal g path q0 := by
  revert hen
  simp only [relaxH]
  cases hl : vlookup vis q0 with
  | none =>
    intro hen
    dsimp only at hen
    rcases List.mem_append.mp hen with hh | hh
    · exact Or.inl hh
    · right
      simpa [newEntryOf, newCostOf] using hh
  | some old =>
    dsimp only
    by_cases hlt : g + costD (e.get_cost q0) < old
    · rw [if_pos hlt]
      intro hen
      dsimp only at hen
      rcases List.mem_append.mp hen with hh | hh
      · exact Or.inl hh
      · right
        simpa [newEntryOf, newCostOf] using hh
    · rw [if_neg hlt]
      intro hen
      exact Or.inl hen

theorem relaxH_lookup_self (h : Pos → Pos → Nat) (e : GridEnv) (goal : Pos) (g : Nat)
    (path : List Pos) (q0 : Pos) (vis : VMap) (fr : List AEntry) (c : Nat)
    (hc : vlookup (relaxH h e goal g path (vis, fr) q0).1 q0 = some c) :
    vlookup vis q0 = some c ∨
      (c = newCostOf e g q0 ∧
        newEntryOf h e goal g path q0 ∈ (relaxH h e goal g path (vis, fr) q0).2) := by
  revert hc
  simp only [relaxH]
  cases hl : vlookup vis q0 with
  | none =>
    intro hc
    dsimp only at hc ⊢
    rw [vlookup_vupdate_self] at hc
    right
    refine ⟨(Option.some.inj hc).symm, ?_⟩
    simp [newEntryOf, newCostOf]
  | some old =>
    dsimp only
    by_cases hlt : g + costD (e.get_cost q0) < old
    · rw [if_pos hlt]
      intro hc
      dsimp only at hc ⊢
      rw [vlookup_vupdate_self] at hc
      right
      refine ⟨(Option.some.inj hc).symm, ?_⟩
      simp [newEntryOf, newCostOf]
    · rw [if_neg hlt]
      intro hc
      exact Or.inl (hl.symm.trans hc)

theorem relaxH_update (h : Pos → Pos → Nat) (e : GridEnv) (goal : Pos) (g : Nat)
    (path : List Pos) (q0 : Pos) (vis : VMap) (fr : List AEntry)
    (hguard : vlookup vis q0 = none ∨
      ∃ old, vlookup vis q0 = some old ∧ newCostOf e g q0 < old) :
    vlookup (relaxH h e goal g path (vis, fr) q0).1 q0 = some (newCostOf e g q0) ∧
      newEntryOf h e goal g path q0 ∈ (relaxH h e goal g path (vis, fr) q0).2 := by
  simp only [relaxH]
  cases hl : vlookup vis q0 with
  | none =>
    dsimp only
    constructor
    · rw [vlookup_vupdate_self]
      rfl
    · simp [newEntryOf, newCostOf]
  | some old =>
    rcases hguard with hnone | ⟨old2, hold2, hlt⟩
    · rw [hl] at hnone
      exact Option.noConfusion hnone
    · rw [hl] at hold2
      have heq : old = old2 := Option.some.inj hold2
      have hlt2 : g + costD (e.get_cost q0) < old := by
        rw [heq]
        exact hlt
      dsimp only
      rw [if_pos hlt2]
      dsimp only
      constructor
      · rw [vlookup_vupdate_self]
        rfl
      · simp [newEntryOf, newCostOf]

theorem relaxH_keep (h : Pos → Pos → Nat) (e : GridEnv) (goal : Pos) (g : Nat)
    (path : List Pos) (q0 : Pos) (vis : VMap) (fr : List AEntry)
    (hk : vlookup vis q0 = some (newCostOf e g q0)) :
    relaxH h e goal g path (vis, fr) q0 = (vis, fr) := by
  simp only [relaxH]
  cases hl : vlookup vis q0 with
  | none =>
    rw [hl] at hk
    exact Option.noConfusion hk
  | some old =>
    have ho : old = newCostOf e g q0 := Option.some.inj (hl.symm.trans hk)
    dsimp only
    rw [if_neg (by rw [ho]; simp [newCostOf])]

theorem relaxH_exists_le (h : Pos → Pos → Nat) (e : GridEnv) (goal : Pos) (g : Nat)
    (path : List Pos) (q0 : Pos) (vis : VMap) (fr : List AEntry) (q : Pos) (c : Nat)
    (hc : vlookup vis q = some c) :
    ∃ c', vlookup (relaxH h e goal g path (vis, fr) q0).1 q = some c' ∧ c' ≤ c := by
  by_cases hq : q = q0
  · subst hq
    simp only [relaxH]
    cases hl : vlookup vis q with
    | none =>
      rw [hl] at hc
      exact Option.noConfusion hc
    | some old =>
      have ho : old = c := Option.some.inj (hl.symm.trans hc)
      dsimp only
      by_cases hlt : g + costD (e.get_cost q) < old
      · rw [if_pos hlt]
        dsimp only
        exact ⟨_, vlookup_vupdate_self vis q _, by omega⟩
      · rw [if_neg hlt]
        exact ⟨c, hc, le_refl c⟩
  · rw [relaxH_lookup_ne h e goal g path q0 vis fr q hq]
    exact ⟨c, hc, le_refl c⟩

theorem foldH_lookup_not_mem (h : Pos → Pos → Nat) (e : GridEnv) (goal : Pos) (g : Nat)
    (path : List Pos) :
    ∀ (ns : List Pos) (vis : VMap) (fr : List AEntry) (q : Pos), q ∉ ns →
      vlookup ((ns.foldl (relaxH h e goal g path) (vis, fr)).1) q = vlookup vis q := by
  intro ns
  induction ns with
  | nil => intro vis fr q hq; rfl
  | cons q0 ns ih =>
    intro vis fr q hq
    rw [List.foldl_cons]
    rcases hstep : relaxH h e goal g path (vis, fr) q0 with ⟨vis1, fr1⟩
    have hq0 : q ≠ q0 := fun hc => hq (hc ▸ List.mem_cons_self q0 ns)
    have hqns : q ∉ ns := fun hc => hq (List.mem_cons_of_mem q0 hc)
    rw [ih vis1 fr1 q hqns]
    have hne := relaxH_lookup_ne h e goal g path q0 vis fr q hq0
    rw [hstep] at hne
    exact hne

theorem foldH_fr_mono (h : Pos → Pos → Nat) (e : GridEnv) (goal : Pos) (g : Nat)
    (path : List Pos) :
    ∀ (ns : List Pos) (vis : VMap) (fr : List AEntry) (en : AEntry), en ∈ fr →
      en ∈ (ns.foldl (relaxH h e goal g path) (vis, fr)).2 := by
  intro ns
  induction ns with
  | nil => intro vis fr en hen; exact hen
  | cons q0 ns ih =>
    intro vis fr en hen
    rw [List.foldl_cons]
    rcases hstep : relaxH h e goal g path (vis, fr) q0 with ⟨vis1, fr1⟩
    apply ih
    have hmono := relaxH_fr_mono h e goal g path q0 vis fr en hen
    rw [hstep] at hmono
    exact hmono

theorem foldH_keep (h : Pos → Pos → Nat) (e : GridEnv) (goal : Pos) (g : Nat)
    (path : List Pos) :
    ∀ (ns : List Pos) (vis : VMap) (fr : List AEntry) (q : Pos),
      vlookup vis q = some (newCostOf e g q) →
      vlookup ((ns.foldl (relaxH h e goal g path) (vis, fr)).1) q = some (newCostOf e g q) := by
  intro ns
  induction ns with
  | nil => intro vis fr q hk; exact hk
  | cons q0 ns ih =>
    intro vis fr q hk
    rw [List.foldl_cons]
    by_cases hqq : q = q0
    · subst hqq
      rw [relaxH_keep h e goal g path q vis fr hk]
      exact ih vis fr q hk
    · rcases hstep : relaxH h e goal g path (vis, fr) q0 with ⟨vis1, fr1⟩
      apply ih
      have hne := relaxH_lookup_ne h e goal g path q0 vis fr q hqq
      rw [hstep] at hne
      rw [hne]
      exact hk

theorem foldH_fr_new (h : Pos → Pos → Nat) (e : GridEnv) (goal : Pos) (g : Nat)
    (path : List Pos) :
    ∀ (ns : List Pos) (vis : VMap) (fr : List AEntry) (en : AEntry),
      en ∈ (ns.foldl (relaxH h e goal g path) (vis, fr)).2 →
      en ∈ fr ∨ ∃ q ∈ ns, en = newEntryOf h e goal g path q := by
  intro ns
  induction ns with
  | nil => intro vis fr en hen; exact Or.inl hen
  | cons q0 ns ih =>
    intro vis fr en hen
    rw [List.foldl_cons] at hen
    rcases hstep : relaxH h e goal g path (vis, fr) q0 with ⟨vis1, fr1⟩
    rw [hstep] at hen
    rcases ih vis1 fr1 en hen with h1 | ⟨q, hq, hq2⟩
    · have hnew := relaxH_fr_new h e goal g path q0 vis fr en (by rw [hstep]; exact h1)
      rcases hnew with h2 | h2
      · exact Or.inl h2
      · exact Or.inr ⟨q0, List.mem_cons_self q0 ns, h2⟩
    · exact Or.inr ⟨q, List.mem_cons_of_mem q0 hq, hq2⟩

theorem foldH_lookup_char (h : Pos → Pos → Nat) (e : GridEnv) (goal : Pos) (g : Nat)
    (path : List Pos) :
    ∀ (ns : List Pos) (vis : VMap) (fr : List AEntry) (q : Pos) (c : Nat),
      vlookup ((ns.foldl (relaxH h e goal g path) (vis, fr)).1) q = some c →
      vlookup vis q = some c ∨
        (q ∈ ns ∧ c = newCostOf e g q ∧
          newEntryOf h e goal g path q ∈ (ns.foldl (relaxH h e goal g path) (vis, fr)).2) := by
  intro ns
  induction ns with
  | nil => intro vis fr q c hc; exact Or.inl hc
  | cons q0 ns ih =>
    intro vis fr q c hc
    rw [List.foldl_cons] at hc ⊢
    rcases hstep : relaxH h e goal g path (vis, fr) q0 with ⟨vis1, fr1⟩
    rw [hstep] at hc
    rcases ih vis1 fr1 q c hc with h1 | ⟨hq, hc2, hmem⟩
    · by_cases hqq : q = q0
      · subst hqq
        have hself := relaxH_lookup_self h e goal g path q vis fr c (by rw [hstep]; exact h1)
        rcases hself with h2 | ⟨h2, h3⟩
        · exact Or.inl h2
        · right
          refine ⟨List.mem_cons_self q ns, h2, ?_⟩
          rw [hstep] at h3
          exact foldH_fr_mono h e goal g path ns vis1 fr1 _ h3
      · left
        have hne := relaxH_lookup_ne h e goal g path q0 vis fr q hqq
        rw [hstep] at hne
        rw [← hne]
        exact h1
    · exact Or.inr ⟨List.mem_cons_of_mem q0 hq, hc2, hmem⟩

theorem foldH_update (h : Pos → Pos → Nat) (e : GridEnv) (goal : Pos) (g : Nat)
    (path : List Pos) :
    ∀ (ns : List Pos) (vis : VMap) (fr : List AEntry) (q : Pos), q ∈ ns →
      (vlookup vis q = none ∨ ∃ old, vlookup vis q = some old ∧ newCostOf e g q < old) →
      vlookup ((ns.foldl (relaxH h e goal g path) (vis, fr)).1) q = some (newCostOf e g q) ∧
        newEntryOf h e goal g path q ∈ (ns.foldl (relaxH h e goal g path) (vis, fr)).2 := by
  intro ns
  induction ns with
  | nil => intro vis fr q hq; exact absurd hq (List.not_mem_nil q)
  | cons q0 ns ih =>
    intro vis fr q hq hguard
    rw [List.foldl_cons]
    rcases hstep : relaxH h e goal g path (vis, fr) q0 with ⟨vis1, fr1⟩
    by_cases hqq : q = q0
    · subst hqq
      have hupd := relaxH_update h e goal g path q vis fr hguard
      rw [hstep] at hupd
      constructor
      · exact foldH_keep h e goal g path ns vis1 fr1 q hupd.1
      · exact foldH_fr_mono h e goal g path ns vis1 fr1 _ hupd.2
    · have hne := relaxH_lookup_ne h e goal g path q0 vis fr q hqq
      rw [hstep] at hne
      have hq' : q ∈ ns := (List.mem_cons.mp hq).resolve_left hqq
      apply ih vis1 fr1 q hq'
      rw [hne]
      exact hguard

theorem foldH_exists_le (h : Pos → Pos → Nat) (e : GridEnv) (goal : Pos) (g : Nat)
    (path : List Pos) :
    ∀ (ns : List Pos) (vis : VMap) (fr : List AEntry) (q : Pos) (c : Nat),
      vlookup vis q = some c →
      ∃ c', vlookup ((ns.foldl (relaxH h e goal g path) (vis, fr)).1) q = some c' ∧ c' ≤ c := by
  intro ns
  induction ns with
  | nil => intro vis fr q c hc; exact ⟨c, hc, le_refl c⟩
  | cons q0 ns ih =>
    intro vis fr q c hc
    rw [List.foldl_cons]
    rcases hstep : relaxH h e goal g path (vis, fr) q0 with ⟨vis1, fr1⟩
    have hex := relaxH_exists_le h e goal g path q0 vis fr q c hc
    rw [hstep] at hex
    obtain ⟨c1, hc1, hle1⟩ := hex
    obtain ⟨c2, hc2, hle2⟩ := ih vis1 fr1 q c1 hc1
    exact ⟨c2, hc2, le_trans hle2 hle1⟩

/-- Invariant of a frontier entry: its carried path is a real path from the
start to its position, its g-cost is that path's cost, and its priority is
g-cost plus heuristic. -/
def EntryInv (e : GridEnv) (h : Pos → Pos → Nat) (goal s : Pos) (en : AEntry) : Prop :=
  IsPath e s en.2.2.1 en.2.2.2 ∧ pathCostE e en.2.2.2 = ((en.2.1 : Nat) : Cost) ∧
    en.1 = en.2.1 + h en.2.2.1 goal

/-- Invariant of the frontier: every entry satisfies `EntryInv`. -/
def FrontInv (e : GridEnv) (h : Pos → Pos → Nat) (goal s : Pos) (fr : List AEntry) : Prop :=
  ∀ en ∈ fr, EntryInv e h goal s en

/-- Invariant of the visited map: every recorded cost is realised by a real path. -/
def VisInv (e : GridEnv) (s : Pos) (vis : VMap) : Prop :=
  ∀ q c, vlookup vis q = some c → ∃ l, IsPath e s q l ∧ pathCostE e l = ((c : Nat) : Cost)

/-- Progress invariant along a fixed optimal path `P`: some index `j` of `P`
has a frontier entry carrying the optimal prefix cost, and no index beyond `j`
has its optimal prefix cost recorded in the visited map. -/
def WitInv (e : GridEnv) (s goal : Pos) (P : List Pos) (fr : List AEntry) (vis : VMap) : Prop :=
  ∃ j, j < P.length ∧
    (∃ en ∈ fr, en.2.2.1 = nthPos P j ∧ ((en.2.1 : Nat) : Cost) = takeCost e P j) ∧
    ∀ i, j < i → i < P.length → ∀ c, vlookup vis (nthPos P i) = some c →
      ((c : Nat) : Cost) ≠ takeCost e P i

theorem hloopFuel_optimal
    (e : GridEnv) (h : Pos → Pos → Nat) (s goal : Pos) (P : List Pos)
    (Hadm : ∀ (v : Pos) (l : List Pos), IsPath e v goal l →
      ((h v goal : Nat) : Cost) ≤ pathCostE e l)
    (Hg0 : h goal goal = 0)
    (HP : IsPath e s goal P)
    (HPopt : ∀ l, IsPath e s goal l → pathCostE e P ≤ pathCostE e l) :
    ∀ (k : Nat) (fr : List AEntry) (vis : VMap) (n : Nat) (r : SearchResult),
      FrontInv e h goal s fr → VisInv e s vis → WitInv e s goal P fr vis →
      hloopFuel h e goal k fr vis n = some r →
      ∃ (π : List Pos) (c m : Nat),
        r = (some π, zc c, m) ∧ IsPath e s goal π ∧ pathCostE e π = ((c : Nat) : Cost) ∧
        ((c : Nat) : Cost) = pathCostE e P := by
  intro k
  induction k with
  | zero => intro fr vis n r _ _ _ hr; simp [hloopFuel] at hr
  | succ k ih =>
    intro fr vis n r hA hB hC hr
    simp only [hloopFuel] at hr
    cases hp : popMin aLt fr with
    | none =>
      exfalso
      obtain ⟨j, hjlen, ⟨en, hen, _, _⟩, _⟩ := hC
      rw [(popMin_none aLt fr).mp hp] at hen
      exact absurd hen (List.not_mem_nil en)
    | some pr =>
      obtain ⟨m, rest⟩ := pr
      rw [hp] at hr
      dsimp only at hr
      have hperm := popMin_perm aLt fr m rest hp
      have hmin := popMin_min aLt aLt_irrefl aLt_trans aLt_connect fr m rest hp
      have hmem_m : m ∈ fr := hperm.mem_iff.mpr (List.mem_cons_self m rest)
      obtain ⟨hMpath, hMcost, hMf⟩ := hA m hmem_m
      obtain ⟨j, hjlen, ⟨enw, hen_w, hen_pos, hen_g⟩, hnone⟩ := hC
      by_cases hg : m.2.2.1 = goal
      · rw [if_pos hg] at hr
        obtain rfl : (some m.2.2.2, zc m.2.1, n + 1) = r := Option.some.inj hr
        have hgoalpath : IsPath e s goal m.2.2.2 := hg ▸ hMpath
        have hle1 : pathCostE e P ≤ ((m.2.1 : Nat) : Cost) := hMcost ▸ HPopt _ hgoalpath
        have hle2 : ((m.2.1 : Nat) : Cost) ≤ pathCostE e P := by
          obtain ⟨hWpath, hWcost, hWf⟩ := hA enw hen_w
          have hflt : aLt enw m = false := hmin enw hen_w
          have hf_le : m.1 ≤ enw.1 := aLt_false_fst enw m hflt
          have hm1 : m.1 = m.2.1 := by
            rw [hMf, hg, Hg0]
            omega
          have hnat : m.2.1 ≤ enw.2.1 + h (nthPos P j) goal := by
            rw [← hm1, hWf, hen_pos] at *
            omega
          have hdrop := IsPath_drop e s goal P HP j hjlen
          have hadm := Hadm (nthPos P j) (P.drop j) hdrop
          calc ((m.2.1 : Nat) : Cost)
              ≤ ((enw.2.1 + h (nthPos P j) goal : Nat) : Cost) := by exact_mod_cast hnat
            _ = ((enw.2.1 : Nat) : Cost) + ((h (nthPos P j) goal : Nat) : Cost) := by push_cast; rfl
            _ ≤ takeCost e P j + pathCostE e (P.drop j) := by
                rw [hen_g]
                exact add_le_add_left hadm _
            _ = pathCostE e P := takeCost_add_drop e P j hjlen
        exact ⟨m.2.2.2, m.2.1, n + 1, rfl, hgoalpath, hMcost, le_antisymm hle2 hle1⟩
      · rw [if_neg hg] at hr
        have hA' : FrontInv e h goal s
            (((e.get_neighbors m.2.2.1).foldl (relaxH h e goal m.2.1 m.2.2.2) (vis, rest)).2) := by
          intro en hen
          rcases foldH_fr_new h e goal m.2.1 m.2.2.2 _ vis rest en hen with h1 | ⟨q, hq, rfl⟩
          · exact hA en (hperm.mem_iff.mpr (List.mem_cons_of_mem m h1))
          · refine ⟨?_, ?_, ?_⟩
            · show IsPath e s q (m.2.2.2 ++ [q])
              exact IsPath_extend e s m.2.2.1 q m.2.2.2 hMpath hq
            · show pathCostE e (m.2.2.2 ++ [q]) = ((newCostOf e m.2.1 q : Nat) : Cost)
              rw [pathCostE_append_singleton e m.2.2.2 q
                (IsPath_ne_nil e s m.2.2.1 m.2.2.2 hMpath)]
              rw [hMcost, ← coe_costD_neighbor e m.2.2.1 q hq]
              unfold newCostOf
              push_cast
              rfl
            · rfl
        have hB' : VisInv e s
            (((e.get_neighbors m.2.2.1).foldl (relaxH h e goal m.2.1 m.2.2.2) (vis, rest)).1) := by
          intro q c hc
          rcases foldH_lookup_char h e goal m.2.1 m.2.2.2 _ vis rest q c hc with h1 | ⟨hq, rfl, _⟩
          · exact hB q c h1
          · refine ⟨m.2.2.2 ++ [q], IsPath_extend e s m.2.2.1 q m.2.2.2 hMpath hq, ?_⟩
            show pathCostE e (m.2.2.2 ++ [q]) = ((newCostOf e m.2.1 q : Nat) : Cost)
            rw [pathCostE_append_singleton e m.2.2.2 q
              (IsPath_ne_nil e s m.2.2.1 m.2.2.2 hMpath)]
            rw [hMcost, ← coe_costD_neighbor e m.2.2.1 q hq]
            unfold newCostOf
            push_cast
            rfl
        have hC' : WitInv e s goal P
            (((e.get_neighbors m.2.2.1).foldl (relaxH h e goal m.2.1 m.2.2.2) (vis, rest)).2)
            (((e.get_neighbors m.2.2.1).foldl (relaxH h e goal m.2.1 m.2.2.2) (vis, rest)).1) := by
          classical
          by_cases hS : ∃ i, j < i ∧ i < P.length ∧ ∃ c,
              vlookup (((e.get_neighbors m.2.2.1).foldl
                (relaxH h e goal m.2.1 m.2.2.2) (vis, rest)).1) (nthPos P i) = some c ∧
              ((c : Nat) : Cost) = takeCost e P i
          · obtain ⟨i0, hi0j, hi0len, c0, hc0, hc0eq⟩ := hS
            haveI : DecidablePred (fun i => j < i ∧ i < P.length ∧ ∃ c,
                vlookup (((e.get_neighbors m.2.2.1).foldl
                  (relaxH h e goal m.2.1 m.2.2.2) (vis, rest)).1) (nthPos P i) = some c ∧
                ((c : Nat) : Cost) = takeCost e P i) := Classical.decPred _
            have hQj' := Nat.findGreatest_spec (P := fun i => j < i ∧ i < P.length ∧ ∃ c,
                vlookup (((e.get_neighbors m.2.2.1).foldl
                  (relaxH h e goal m.2.1 m.2.2.2) (vis, rest)).1) (nthPos P i) = some c ∧
                ((c : Nat) : Cost) = takeCost e P i)
              (le_of_lt hi0len) ⟨hi0j, hi0len, c0, hc0, hc0eq⟩
            obtain ⟨hj'j, hj'len, c', hc', hc'eq⟩ := hQj'
            rcases foldH_lookup_char h e goal m.2.1 m.2.2.2 _ vis rest _ c' hc'
              with hold | ⟨hqmem, hceq, hentry⟩
            · exact absurd hc'eq (hnone _ hj'j hj'len c' hold)
            · refine ⟨_, hj'len, ⟨newEntryOf h e goal m.2.1 m.2.2.2 _, hentry, rfl, ?_⟩, ?_⟩
              · show ((newCostOf e m.2.1 _ : Nat) : Cost) = _
                rw [← hceq]
                exact hc'eq
              · intro i hi hilen c hc hceq2
                have hgr := Nat.findGreatest_is_greatest (P := fun i => j < i ∧ i < P.length ∧ ∃ c,
                    vlookup (((e.get_neighbors m.2.2.1).foldl
                      (relaxH h e goal m.2.1 m.2.2.2) (vis, rest)).1) (nthPos P i) = some c ∧
                    ((c : Nat) : Cost) = takeCost e P i)
                  hi (le_of_lt hilen)
                exact hgr ⟨lt_trans hj'j hi, hilen, c, hc, hceq2⟩
          · have hen_rest : enw ∈ rest := by
              rcases List.mem_cons.mp (hperm.mem_iff.mp hen_w) with he | he
              · exfalso
                have hmpos : m.2.2.1 = nthPos P j := he ▸ hen_pos
                have hmg : ((m.2.1 : Nat) : Cost) = takeCost e P j := he ▸ hen_g
                have hj1 : j + 1 < P.length := by
                  rcases Nat.lt_or_ge (j + 1) P.length with hh | hh
                  · exact hh
                  · exfalso
                    apply hg
                    have hjeq : j = P.length - 1 := by omega
                    rw [hmpos, hjeq]
                    exact nthPos_last e s goal P HP
                have hw : nthPos P (j + 1) ∈ e.get_neighbors m.2.2.1 := by
                  rw [hmpos]
                  exact nthPos_chain e s goal P HP j hj1
                have hgval : ((newCostOf e m.2.1 (nthPos P (j + 1)) : Nat) : Cost)
                    = takeCost e P (j + 1) := by
                  unfold newCostOf
                  rw [takeCost_succ e P j hj1, ← hmg, ← coe_costD_neighbor e m.2.2.1 _ hw]
                  push_cast
                  rfl
                cases hvw : vlookup vis (nthPos P (j + 1)) with
                | none =>
                  have hupd := foldH_update h e goal m.2.1 m.2.2.2 _ vis rest _ hw (Or.inl hvw)
                  exact hS ⟨j + 1, by omega, hj1, _, hupd.1, hgval⟩
                | some old =>
                  have hne2 := hnone (j + 1) (by omega) hj1 old hvw
                  obtain ⟨l, hl, hlc⟩ := hB _ _ hvw
                  have hole : takeCost e P (j + 1) ≤ ((old : Nat) : Cost) := by
                    rw [← hlc]
                    exact prefix_optimal e s goal P HP HPopt (j + 1) hj1 l hl
                  have hlt : newCostOf e m.2.1 (nthPos P (j + 1)) < old := by
                    have h1 : takeCost e P (j + 1) < ((old : Nat) : Cost) :=
                      lt_of_le_of_ne hole (Ne.symm hne2)
                    rw [← hgval] at h1
                    exact_mod_cast h1
                  have hupd := foldH_update h e goal m.2.1 m.2.2.2 _ vis rest _ hw
                    (Or.inr ⟨old, hvw, hlt⟩)
                  exact hS ⟨j + 1, by omega, hj1, _, hupd.1, hgval⟩
              · exact he
            refine ⟨j, hjlen,
              ⟨enw, foldH_fr_mono h e goal m.2.1 m.2.2.2 _ vis rest enw hen_rest,
                hen_pos, hen_g⟩, ?_⟩
            intro i hi hilen c hc hceq2
            exact hS ⟨i, hi, hilen, c, hc, hceq2⟩
        exact ih _ _ (n + 1) r hA' hB' hC' hr

theorem hloopFuel_term_aux (h : Pos → Pos → Nat) (e : GridEnv) (goal : Pos) :
    ∀ (a b c : Nat) (fr : List AEntry) (vis : VMap) (n : Nat),
      unvisCount e vis = a → visSum vis = b → fr.length = c →
      ∃ k r, hloopFuel h e goal k fr vis n = some r := by
  intro a
  induction a using Nat.strong_induction_on with
  | _ a iha =>
    intro b
    induction b using Nat.strong_induction_on with
    | _ b ihb =>
      intro c
      induction c using Nat.strong_induction_on with
      | _ c ihc =>
        intro fr vis n ha hb hc
        cases hp : popMin aLt fr with
        | none =>
          refine ⟨1, (none, ((-1 : Int) : CostZ), n), ?_⟩
          simp [hloopFuel, hp]
        | some pr =>
          obtain ⟨m, rest⟩ := pr
          by_cases hg : m.2.2.1 = goal
          · refine ⟨1, (some m.2.2.2, zc m.2.1, n + 1), ?_⟩
            simp [hloopFuel, hp, hg]
          · have hrest_len : rest.length + 1 = fr.length := popMin_length aLt fr m rest hp
            rcases fold_measure_spec e (relaxH h e goal m.2.1 m.2.2.2)
                (fun q vis2 fr2 hq => relaxH_step_spec h e goal m.2.1 m.2.2.2 q
                  ((mem_allValidPos e q).mp hq) vis2 fr2)
                (e.get_neighbors m.2.2.1)
                (fun q hq => (mem_allValidPos e q).mpr (get_neighbors_valid e m.2.2.1 q hq))
                vis rest with heq | hlt | ⟨heq2, hlt2⟩
            · obtain ⟨k, r, hk⟩ := ihc rest.length (by omega) rest vis (n + 1) ha hb rfl
              refine ⟨k + 1, r, ?_⟩
              simp only [hloopFuel]
              rw [hp]
              dsimp only
              rw [if_neg hg]
              rw [heq]
              exact hk
            · obtain ⟨k, r, hk⟩ := iha
                (unvisCount e ((e.get_neighbors m.2.2.1).foldl
                  (relaxH h e goal m.2.1 m.2.2.2) (vis, rest)).1)
                (by omega)
                (visSum ((e.get_neighbors m.2.2.1).foldl
                  (relaxH h e goal m.2.1 m.2.2.2) (vis, rest)).1)
                ((e.get_neighbors m.2.2.1).foldl
                  (relaxH h e goal m.2.1 m.2.2.2) (vis, rest)).2.length
                ((e.get_neighbors m.2.2.1).foldl (relaxH h e goal m.2.1 m.2.2.2) (vis, rest)).2
                ((e.get_neighbors m.2.2.1).foldl (relaxH h e goal m.2.1 m.2.2.2) (vis, rest)).1
                (n + 1) rfl rfl rfl
              refine ⟨k + 1, r, ?_⟩
              simp only [hloopFuel]
              rw [hp]
              dsimp only
              rw [if_neg hg]
              exact hk
            · obtain ⟨k, r, hk⟩ := ihb
                (visSum ((e.get_neighbors m.2.2.1).foldl
                  (relaxH h e goal m.2.1 m.2.2.2) (vis, rest)).1)
                (by omega)
                ((e.get_neighbors m.2.2.1).foldl
                  (relaxH h e goal m.2.1 m.2.2.2) (vis, rest)).2.length
                ((e.get_neighbors m.2.2.1).foldl (relaxH h e goal m.2.1 m.2.2.2) (vis, rest)).2
                ((e.get_neighbors m.2.2.1).foldl (relaxH h e goal m.2.1 m.2.2.2) (vis, rest)).1
                (n + 1) (by omega) rfl rfl
              refine ⟨k + 1, r, ?_⟩
              simp only [hloopFuel]
              rw [hp]
              dsimp only
              rw [if_neg hg]
              exact hk

theorem hloopFuel_terminates (h : Pos → Pos → Nat) (e : GridEnv) (goal : Pos)
    (fr : List AEntry) (vis : VMap) (n : Nat) :
    ∃ k r, hloopFuel h e goal k fr vis n = some r :=
  hloopFuel_term_aux h e goal (unvisCount e vis) (visSum vis) fr.length fr vis n rfl rfl rfl

theorem hloopFuel_sound (e : GridEnv) (h : Pos → Pos → Nat) (s goal : Pos) :
    ∀ (k : Nat) (fr : List AEntry) (vis : VMap) (n : Nat) (r : SearchResult),
      FrontInv e h goal s fr →
      hloopFuel h e goal k fr vis n = some r →
      (∃ m : Nat, r = (none, ((-1 : Int) : CostZ), m) ∧ n ≤ m ∧ (fr ≠ [] → n + 1 ≤ m)) ∨
      (∃ (π : List Pos) (c m : Nat), r = (some π, zc c, m) ∧ IsPath e s goal π ∧
        pathCostE e π = ((c : Nat) : Cost) ∧ n + 1 ≤ m) := by
  intro k
  induction k with
  | zero => intro fr vis n r _ hr; simp [hloopFuel] at hr
  | succ k ih =>
    intro fr vis n r hA hr
    simp only [hloopFuel] at hr
    cases hp : popMin aLt fr with
    | none =>
      rw [hp] at hr
      dsimp only at hr
      obtain rfl : (none, ((-1 : Int) : CostZ), n) = r := Option.some.inj hr
      left
      refine ⟨n, rfl, le_refl n, ?_⟩
      intro hne
      exact absurd ((popMin_none aLt fr).mp hp) hne
    | some pr =>
      obtain ⟨en0, rest⟩ := pr
      rw [hp] at hr
      dsimp only at hr
      have hperm := popMin_perm aLt fr en0 rest hp
      have hmem0 : en0 ∈ fr := hperm.mem_iff.mpr (List.mem_cons_self en0 rest)
      obtain ⟨hMpath, hMcost, hMf⟩ := hA en0 hmem0
      by_cases hg : en0.2.2.1 = goal
      · rw [if_pos hg] at hr
        obtain rfl : (some en0.2.2.2, zc en0.2.1, n + 1) = r := Option.some.inj hr
        right
        exact ⟨en0.2.2.2, en0.2.1, n + 1, rfl, hg ▸ hMpath, hMcost, le_refl (n + 1)⟩
      · rw [if_neg hg] at hr
        have hA' : FrontInv e h goal s
            (((e.get_neighbors en0.2.2.1).foldl
              (relaxH h e goal en0.2.1 en0.2.2.2) (vis, rest)).2) := by
          intro en hen
          rcases foldH_fr_new h e goal en0.2.1 en0.2.2.2 _ vis rest en hen with h1 | ⟨q, hq, rfl⟩
          · exact hA en (hperm.mem_iff.mpr (List.mem_cons_of_mem en0 h1))
          · refine ⟨?_, ?_, ?_⟩
            · show IsPath e s q (en0.2.2.2 ++ [q])
              exact IsPath_extend e s en0.2.2.1 q en0.2.2.2 hMpath hq
            · show pathCostE e (en0.2.2.2 ++ [q]) = ((newCostOf e en0.2.1 q : Nat) : Cost)
              rw [pathCostE_append_singleton e en0.2.2.2 q
                (IsPath_ne_nil e s en0.2.2.1 en0.2.2.2 hMpath)]
              rw [hMcost, ← coe_costD_neighbor e en0.2.2.1 q hq]
              unfold newCostOf
              push_cast
              rfl
            · rfl
        rcases ih _ _ _ _ hA' hr with ⟨m, hrq, hle, _⟩ | ⟨π, c, m, hrq, hpath, hcost, hle⟩
        · left
          exact ⟨m, hrq, by omega, fun _ => by omega⟩
        · right
          exact ⟨π, c, m, hrq, hpath, hcost, by omega⟩

theorem manhattan_self (p : Pos) : manhattan_distance p p = 0 := by
  simp [manhattan_distance]

theorem manhattan_neighbor (e : GridEnv) (p q : Pos) (hq : q ∈ e.get_neighbors p) :
    manhattan_distance p q = 1 := by
  unfold GridEnv.get_neighbors at hq
  rw [List.mem_filter] at hq
  obtain ⟨hmem, _⟩ := hq
  unfold manhattan_distance
  simp only [List.mem_cons, List.mem_singleton, List.not_mem_nil, or_false] at hmem
  rcases hmem with h | h | h | h
  · subst h; simp
  · subst h; simp
  · subst h; simp
  · subst h; simp

theorem manhattan_triangle (a b c : Pos) :
    manhattan_distance a c ≤ manhattan_distance a b + manhattan_distance b c := by
  unfold manhattan_distance
  omega

theorem manhattan_admissible (e : GridEnv)
    (Hc : ∀ q : Pos, (1 : Cost) ≤ e.get_cost q) (goal : Pos) :
    ∀ (l : List Pos) (v : Pos), IsPath e v goal l →
      ((manhattan_distance v goal : Nat) : Cost) ≤ pathCostE e l := by
  intro l
  induction l with
  | nil => intro v hpath; exact absurd rfl (IsPath_ne_nil e v goal [] hpath)
  | cons a tl ih =>
    intro v hpath
    have hav : a = v := by
      have := hpath.1
      simp only [List.head?] at this
      exact Option.some.inj this
    subst hav
    cases tl with
    | nil =>
      have hgoal : a = goal := by
        have := hpath.2.1
        simp only [List.getLast?] at this
        exact Option.some.inj this
      subst hgoal
      rw [manhattan_self, pathCostE_singleton]
      exact le_refl _
    | cons w tl2 =>
      have hstep : w ∈ e.get_neighbors a := by
        have := hpath.2.2
        rw [List.chain'_cons] at this
        exact this.1
      have htail : IsPath e w goal (w :: tl2) := by
        refine ⟨rfl, ?_, ?_⟩
        · have := hpath.2.1
          rw [List.getLast?_cons_cons] at this
          exact this
        · have := hpath.2.2
          rw [List.chain'_cons] at this
          exact this.2
      have hih := ih w htail
      have hcost : pathCostE e (a :: w :: tl2) = e.get_cost w + pathCostE e (w :: tl2) := by
        unfold pathCostE
        simp [List.sum_cons]
      rw [hcost]
      have htri : manhattan_distance a goal ≤ 1 + manhattan_distance w goal := by
        have := manhattan_triangle a w goal
        rw [manhattan_neighbor e a w hstep] at this
        exact this
      calc ((manhattan_distance a goal : Nat) : Cost)
          ≤ ((1 + manhattan_distance w goal : Nat) : Cost) := by exact_mod_cast htri
        _ = (1 : Cost) + ((manhattan_distance w goal : Nat) : Cost) := by push_cast; rfl
        _ ≤ e.get_cost w + pathCostE e (w :: tl2) := add_le_add (Hc w) hih

theorem vlookup_single (s : Pos) (v : Nat) (q : Pos) (c : Nat)
    (h : vlookup [(s, v)] q = some c) : q = s ∧ c = v := by
  by_cases hq : s = q
  · subst hq
    simp [vlookup] at h
    exact ⟨rfl, h.symm⟩
  · simp [vlookup, hq] at h

theorem FrontInv_init (e : GridEnv) (h : Pos → Pos → Nat) (s goal : Pos) :
    FrontInv e h goal s [(0 + h s goal, 0, s, [s])] := by
  intro en hen
  rw [List.mem_singleton] at hen
  subst hen
  refine ⟨IsPath_singleton e s, ?_, rfl⟩
  rw [pathCostE_singleton]
  simp

theorem VisInv_init (e : GridEnv) (s : Pos) : VisInv e s [(s, 0)] := by
  intro q c hc
  obtain ⟨rfl, rfl⟩ := vlookup_single s 0 q c hc
  refine ⟨[q], IsPath_singleton e q, ?_⟩
  rw [pathCostE_singleton]
  simp

theorem WitInv_init (e : GridEnv) (h : Pos → Pos → Nat) (s goal : Pos) (P : List Pos)
    (Hc : ∀ q : Pos, (1 : Cost) ≤ e.get_cost q) (HP : IsPath e s goal P) :
    WitInv e s goal P [(0 + h s goal, 0, s, [s])] [(s, 0)] := by
  have hlen : 0 < P.length := by
    cases P with
    | nil => exact absurd rfl (IsPath_ne_nil e s goal [] HP)
    | cons a as => simp
  refine ⟨0, hlen, ?_, ?_⟩
  · refine ⟨(0 + h s goal, 0, s, [s]), List.mem_singleton.mpr rfl, ?_, ?_⟩
    · exact (nthPos_zero e s goal P HP).symm
    · rw [takeCost_zero e s goal P HP]
      simp
  · intro i hi hilen c hc
    obtain ⟨_, rfl⟩ := vlookup_single s 0 _ c hc
    intro heq
    have h1 : ((i : Nat) : Cost) ≤ takeCost e P i := coe_le_takeCost e s goal P Hc HP i hilen
    rw [← heq] at h1
    have h2 : (i : Nat) ≤ 0 := by exact_mod_cast h1
    omega

/-- Map a UCS entry `(cost, pos, path)` to the A* entry it corresponds to
under the constant-zero heuristic: `(cost, cost, pos, path)`. -/
def toA (u : UEntry) : AEntry := (u.1, u.1, u.2.1, u.2.2)

theorem aLt_toA (x y : UEntry) : aLt (toA x) (toA y) = uLt x y := by
  unfold aLt uLt toA
  by_cases h1 : x.1 = y.1
  · simp [h1]
  · simp [h1]

theorem popMin_toA : ∀ (l : List UEntry),
    popMin aLt (l.map toA) =
      (popMin uLt l).map (fun pr => (toA pr.1, pr.2.map toA)) := by
  intro l
  induction l with
  | nil => rfl
  | cons a es ih =>
    rw [List.map_cons]
    simp only [popMin]
    rw [ih]
    cases hp : popMin uLt es with
    | none => rfl
    | some pr =>
      obtain ⟨m, rest⟩ := pr
      simp only [Option.map_some']
      rw [aLt_toA]
      by_cases hlt : uLt m a = true
      · rw [if_pos hlt, if_pos hlt]
        rfl
      · rw [if_neg hlt, if_neg hlt]
        rfl

theorem relax_toA (e : GridEnv) (goal : Pos) (g : Nat) (path : List Pos)
    (vis : VMap) (fr : List UEntry) (q : Pos) :
    relaxH (fun _ _ => 0) e goal g path (vis, fr.map toA) q =
      ((relaxU e g path (vis, fr) q).1, (relaxU e g path (vis, fr) q).2.map toA) := by
  simp only [relaxH, relaxU]
  cases hl : vlookup vis q with
  | none =>
    dsimp only
    rw [List.map_append]
    simp [toA]
  | some old =>
    dsimp only
    by_cases hlt : g + costD (e.get_cost q) < old
    · rw [if_pos hlt, if_pos hlt]
      rw [List.map_append]
      simp [toA]
    · rw [if_neg hlt, if_neg hlt]

theorem fold_toA (e : GridEnv) (goal : Pos) (g : Nat) (path : List Pos) :
    ∀ (ns : List Pos) (vis : VMap) (fr : List UEntry),
      ns.foldl (relaxH (fun _ _ => 0) e goal g path) (vis, fr.map toA) =
        ((ns.foldl (relaxU e g path) (vis, fr)).1,
          (ns.foldl (relaxU e g path) (vis, fr)).2.map toA) := by
  intro ns
  induction ns with
  | nil => intro vis fr; rfl
  | cons q ns ih =>
    intro vis fr
    rw [List.foldl_cons, List.foldl_cons]
    rw [relax_toA e goal g path vis fr q]
    exact ih (relaxU e g path (vis, fr) q).1 (relaxU e g path (vis, fr) q).2

theorem uloopFuel_toA (e : GridEnv) (goal : Pos) :
    ∀ (k : Nat) (fr : List UEntry) (vis : VMap) (n : Nat),
      uloopFuel e goal k fr vis n =
        hloopFuel (fun _ _ => 0) e goal k (fr.map toA) vis n := by
  intro k
  induction k with
  | zero => intro fr vis n; rfl
  | succ k ih =>
    intro fr vis n
    simp only [uloopFuel, hloopFuel]
    rw [popMin_toA]
    cases hp : popMin uLt fr with
    | none => rfl
    | some pr =>
      obtain ⟨m, rest⟩ := pr
      simp only [Option.map_some']
      by_cases hg : m.2.1 = goal
      · rw [if_pos hg, if_pos (show (toA m).2.2.1 = goal from hg)]
        rfl
      · rw [if_neg hg, if_neg (show ¬(toA m).2.2.1 = goal from hg)]
        rw [show ((toA m).2.1 : Nat) = m.1 from rfl,
          show ((toA m).2.2.2 : List Pos) = m.2.2 from rfl]
        rw [fold_toA]
        exact ih _ _ _

/-- C1: for every grid environment in which every cell cost is at least 1 and
start and goal are in-bounds and passable, if any start-to-goal path over
passable cells exists then `a_star_search` returns a path whose cost is the
minimum over all such paths, and `uniform_cost_search` returns a path of that
same minimum cost. -/
theorem claim_C1_optimal_search (e : GridEnv) (s g : Pos)
    (Hc : ∀ row ∈ e.grid, ∀ c ∈ row, (1 : Cost) ≤ c)
    (hs : e.is_valid s = true ∧ e.is_passable s = true)
    (hg2 : e.is_valid g = true ∧ e.is_passable g = true)
    (hreach : ∃ l, IsPath e s g l) :
    ∃ (pa pu : List Pos) (c na nu : Nat),
      a_star_search e s g = (some pa, zc c, na) ∧
      uniform_cost_search e s g = (some pu, zc c, nu) ∧
      IsPath e s g pa ∧ pathCostE e pa = ((c : Nat) : Cost) ∧
      IsPath e s g pu ∧ pathCostE e pu = ((c : Nat) : Cost) ∧
      ∀ l, IsPath e s g l → ((c : Nat) : Cost) ≤ pathCostE e l := by
  obtain ⟨P, HP, HPopt⟩ := exists_optimal_path e s g hreach
  have Hcp : ∀ q : Pos, (1 : Cost) ≤ e.get_cost q := one_le_get_cost e Hc
  obtain ⟨ka, ra, hka⟩ := hloopFuel_terminates manhattan_distance e g
    [(0 + manhattan_distance s g, 0, s, [s])] [(s, 0)] 0
  obtain ⟨pa, ca, ma, hra, hpa, hca, hcaP⟩ :=
    hloopFuel_optimal e manhattan_distance s g P
      (fun v l hl => manhattan_admissible e Hcp g l v hl) (manhattan_self g) HP HPopt
      ka _ _ 0 ra (FrontInv_init e manhattan_distance s g) (VisInv_init e s)
      (WitInv_init e manhattan_distance s g P Hcp HP) hka
  obtain ⟨ku, ru, hku⟩ := hloopFuel_terminates (fun _ _ => 0) e g
    [(0, 0, s, [s])] [(s, 0)] 0
  obtain ⟨pu, cu, mu, hru, hpu, hcu, hcuP⟩ :=
    hloopFuel_optimal e (fun _ _ => 0) s g P
      (fun v l hl => by simp) rfl HP HPopt
      ku _ _ 0 ru (FrontInv_init e (fun _ _ => 0) s g) (VisInv_init e s)
      (WitInv_init e (fun _ _ => 0) s g P Hcp HP) hku
  have hccu : ca = cu := by
    have hcast : ((ca : Nat) : Cost) = ((cu : Nat) : Cost) := by rw [hcaP, hcuP]
    exact_mod_cast hcast
  subst hccu
  refine ⟨pa, pu, ca, ma, mu, ?_, ?_, hpa, hca, hpu, hcu, ?_⟩
  · rw [hra] at hka
    exact a_star_searchFuel_agree e s g ka _ hka
  · have hku2 : uloopFuel e g ku [(0, s, [s])] [(s, 0)] 0 = some ru := by
      rw [uloopFuel_toA]
      exact hku
    rw [hru] at hku2
    exact uniform_cost_searchFuel_agree e s g ku _ hku2
  · intro l hl
    rw [hcaP]
    exact HPopt l hl

theorem claim_C1_witness :
    (∀ row ∈ gridPair.grid, ∀ c ∈ row, (1 : Cost) ≤ c) ∧
    (gridPair.is_valid (0, 0) = true ∧ gridPair.is_passable (0, 0) = true) ∧
    (gridPair.is_valid (0, 1) = true ∧ gridPair.is_passable (0, 1) = true) ∧
    (∃ l, IsPath gridPair (0, 0) (0, 1) l) ∧
    (∃ (pa pu : List Pos) (c na nu : Nat),
      a_star_search gridPair (0, 0) (0, 1) = (some pa, zc c, na) ∧
      uniform_cost_search gridPair (0, 0) (0, 1) = (some pu, zc c, nu) ∧
      IsPath gridPair (0, 0) (0, 1) pa ∧ pathCostE gridPair pa = ((c : Nat) : Cost) ∧
      IsPath gridPair (0, 0) (0, 1) pu ∧ pathCostE gridPair pu = ((c : Nat) : Cost) ∧
      ∀ l, IsPath gridPair (0, 0) (0, 1) l →
        ((c : Nat) : Cost) ≤ pathCostE gridPair l) := by
  have hpath : IsPath gridPair (0, 0) (0, 1) [(0, 0), (0, 1)] := by
    refine ⟨rfl, rfl, ?_⟩
    rw [List.chain'_cons]
    exact ⟨by decide, List.chain'_singleton _⟩
  exact ⟨by decide, by decide, by decide, ⟨_, hpath⟩,
    claim_C1_optimal_search gridPair (0, 0) (0, 1) (by decide) (by decide) (by decide)
      ⟨_, hpath⟩⟩

/-- C5: for every environment and in-bounds, passable start and goal, if no
start-to-goal path over passable cells exists, `uniform_cost_search` and
`a_star_search` each terminate and return the ordinary triple
`(none, -1, nodesExpanded)` with `nodesExpanded ≥ 1`. -/
theorem claim_C5_no_path (e : GridEnv) (s g : Pos)
    (hs : e.is_valid s = true ∧ e.is_passable s = true)
    (hg2 : e.is_valid g = true ∧ e.is_passable g = true)
    (hnone : ¬ ∃ l, IsPath e s g l) :
    (∃ na : Nat, a_star_search e s g = (none, ((-1 : Int) : CostZ), na) ∧ 1 ≤ na) ∧
    (∃ nu : Nat, uniform_cost_search e s g = (none, ((-1 : Int) : CostZ), nu) ∧ 1 ≤ nu) := by
  constructor
  · obtain ⟨ka, ra, hka⟩ := hloopFuel_terminates manhattan_distance e g
      [(0 + manhattan_distance s g, 0, s, [s])] [(s, 0)] 0
    rcases hloopFuel_sound e manhattan_distance s g ka _ _ _ _
        (FrontInv_init e manhattan_distance s g) hka with
      ⟨m, hrq, _, hfr⟩ | ⟨p, c, m, _, hpath, _, _⟩
    · refine ⟨m, ?_, ?_⟩
      · rw [hrq] at hka
        exact a_star_searchFuel_agree e s g ka _ hka
      · exact hfr (by simp)
    · exact absurd ⟨p, hpath⟩ hnone
  · obtain ⟨ku, ru, hku⟩ := hloopFuel_terminates (fun _ _ => 0) e g
      [(0, 0, s, [s])] [(s, 0)] 0
    rcases hloopFuel_sound e (fun _ _ => 0) s g ku _ _ _ _
        (FrontInv_init e (fun _ _ => 0) s g) hku with
      ⟨m, hrq, _, hfr⟩ | ⟨p, c, m, _, hpath, _, _⟩
    · refine ⟨m, ?_, ?_⟩
      · have hku2 : uloopFuel e g ku [(0, s, [s])] [(s, 0)] 0 = some ru := by
          rw [uloopFuel_toA]
          exact hku
        rw [hrq] at hku2
        exact uniform_cost_searchFuel_agree e s g ku _ hku2
      · exact hfr (by simp)
    · exact absurd ⟨p, hpath⟩ hnone

theorem claim_C5_witness :
    (gridWall.is_valid (0, 0) = true ∧ gridWall.is_passable (0, 0) = true) ∧
    (gridWall.is_valid (0, 2) = true ∧ gridWall.is_passable (0, 2) = true) ∧
    (¬ ∃ l, IsPath gridWall (0, 0) (0, 2) l) ∧
    ((∃ na : Nat,
        a_star_search gridWall (0, 0) (0, 2) = (none, ((-1 : Int) : CostZ), na) ∧ 1 ≤ na) ∧
     (∃ nu : Nat,
        uniform_cost_search gridWall (0, 0) (0, 2) = (none, ((-1 : Int) : CostZ), nu) ∧
          1 ≤ nu)) := by
  have hnb : gridWall.get_neighbors (0, 0) = [] := by decide
  have hnone : ¬ ∃ l, IsPath gridWall (0, 0) (0, 2) l := by
    rintro ⟨l, hl⟩
    cases l with
    | nil => exact absurd rfl (IsPath_ne_nil gridWall (0, 0) (0, 2) [] hl)
    | cons a tl =>
      have ha : a = (0, 0) := by
        have := hl.1
        simp only [List.head?] at this
        exact Option.some.inj this
      subst ha
      cases tl with
      | nil =>
        have := hl.2.1
        simp only [List.getLast?] at this
        exact absurd (Option.some.inj this) (by decide)
      | cons w tl2 =>
        have hch := hl.2.2
        rw [List.chain'_cons] at hch
        have hw : w ∈ gridWall.get_neighbors (0, 0) := hch.1
        rw [hnb] at hw
        exact absurd hw (List.not_mem_nil w)
  exact ⟨by decide, by decide, hnone,
    claim_C5_no_path gridWall (0, 0) (0, 2) (by decide) (by decide) hnone⟩

/-- C7: every path returned by `uniform_cost_search` or `a_star_search`, given
an in-bounds and passable start, contains only in-bounds, passable positions. -/
theorem claim_C7_path_safety (e : GridEnv) (s g : Pos)
    (hs : e.is_valid s = true ∧ e.is_passable s = true) :
    ∀ (p : List Pos) (c : CostZ) (n : Nat),
      a_star_search e s g = (some p, c, n) ∨
        uniform_cost_search e s g = (some p, c, n) →
      ∀ q ∈ p, e.is_valid q = true ∧ e.is_passable q = true := by
  intro p c n hrun q hq
  have hpath : IsPath e s g p := by
    rcases hrun with hrun | hrun
    · obtain ⟨ka, ra, hka⟩ := hloopFuel_terminates manhattan_distance e g
        [(0 + manhattan_distance s g, 0, s, [s])] [(s, 0)] 0
      have hag : a_star_search e s g = ra := a_star_searchFuel_agree e s g ka _ hka
      rcases hloopFuel_sound e manhattan_distance s g ka _ _ _ _
          (FrontInv_init e manhattan_distance s g) hka with
        ⟨m, hrq, _, _⟩ | ⟨pp, cc, m, hrq, hpath2, _, _⟩
      · rw [hag, hrq] at hrun
        simp at hrun
      · rw [hag, hrq] at hrun
        obtain ⟨h1, _, _⟩ := Prod.mk.injEq .. ▸ hrun
        obtain rfl : pp = p := by
          have := congrArg Prod.fst hrun
          simpa using this
        exact hpath2
    · obtain ⟨ku, ru, hku⟩ := hloopFuel_terminates (fun _ _ => 0) e g
        [(0, 0, s, [s])] [(s, 0)] 0
      have hku2 : uloopFuel e g ku [(0, s, [s])] [(s, 0)] 0 = some ru := by
        rw [uloopFuel_toA]
        exact hku
      have hag : uniform_cost_search e s g = ru :=
        uniform_cost_searchFuel_agree e s g ku _ hku2
      rcases hloopFuel_sound e (fun _ _ => 0) s g ku _ _ _ _
          (FrontInv_init e (fun _ _ => 0) s g) hku with
        ⟨m, hrq, _, _⟩ | ⟨pp, cc, m, hrq, hpath2, _, _⟩
      · rw [hag, hrq] at hrun
        simp at hrun
      · rw [hag, hrq] at hrun
        obtain rfl : pp = p := by
          have := congrArg Prod.fst hrun
          simpa using this
        exact hpath2
  rcases IsPath_mem e s g p hpath q hq with h1 | h1
  · subst h1
    exact hs
  · exact h1

theorem claim_C7_witness :
    (gridPair.is_valid (0, 0) = true ∧ gridPair.is_passable (0, 0) = true) ∧
    (a_star_search gridPair (0, 0) (0, 1) = (some [(0, 0), (0, 1)], zc 1, 2) ∨
      uniform_cost_search gridPair (0, 0) (0, 1) = (some [(0, 0), (0, 1)], zc 1, 2)) ∧
    (∀ q ∈ [((0 : Int), (0 : Int)), (0, 1)],
      gridPair.is_valid q = true ∧ gridPair.is_passable q = true) := by
  have hrun : a_star_search gridPair (0, 0) (0, 1) = (some [(0, 0), (0, 1)], zc 1, 2) :=
    a_star_searchFuel_agree gridPair (0, 0) (0, 1) 3 _ (by decide)
  exact ⟨by decide, Or.inl hrun,
    claim_C7_path_safety gridPair (0, 0) (0, 1) (by decide) [(0, 0), (0, 1)] (zc 1) 2
      (Or.inl hrun)⟩

theorem no_dynamic_obstacle_of_empty (e : GridEnv) (hreg : e.dynamicObstacles = [])
    (p : Pos) (t : Nat) : e.is_dynamic_obstacle_at p t = false := by
  unfold GridEnv.is_dynamic_obstacle_at
  rw [hreg]
  simp

theorem nzc_zero : nzc 0 = 0 := rfl

theorem nzc_coe (c : Nat) : nzc ((c : Nat) : Cost) = zc c := rfl

theorem nzc_add (x y : Cost) : nzc (x + y) = nzc x + nzc y := by
  induction x using WithTop.recTopCoe with
  | top => simp [nzc]
  | coe a =>
    induction y using WithTop.recTopCoe with
    | top => simp [nzc]
    | coe b =>
      rw [← WithTop.coe_add]
      show ((Int.ofNat (a + b) : Int) : CostZ) =
        ((Int.ofNat a : Int) : CostZ) + ((Int.ofNat b : Int) : CostZ)
      rw [← WithTop.coe_add]
      congr 1

/-- Sum of the move costs charged by the walk loop over `k` steps starting
at index `i` (each step adds `get_cost` of the next position). -/
def walkSum (e : GridEnv) (p : List Pos) : Nat → Nat → CostZ
  | 0, _ => 0
  | k + 1, i => nzc (e.get_cost (p.getD (i + 1) (0, 0))) + walkSum e p k (i + 1)

theorem replanLoop_empty (goal : Pos) :
    ∀ (k i : Nat) (e : GridEnv) (p : List Pos) (tc : CostZ) (tn : Nat),
      e.dynamicObstacles = [] →
      replanLoop goal k i e p tc tn = (some p, tc + walkSum e p k i, tn) := by
  intro k
  induction k with
  | zero =>
    intro i e p tc tn _
    simp [replanLoop, walkSum]
  | succ k ih =>
    intro i e p tc tn hreg
    rw [replanLoop]
    rw [no_dynamic_obstacle_of_empty e hreg (p.getD (i + 1) (0, 0)) (i + 1)]
    simp only [Bool.false_eq_true, if_false]
    rw [ih (i + 1) e p _ tn hreg]
    rw [walkSum]
    rw [add_assoc]

theorem walkSum_eq (e : GridEnv) :
    ∀ (tl p : List Pos) (i : Nat), p.drop (i + 1) = tl →
      walkSum e p tl.length i = nzc ((tl.map e.get_cost).sum) := by
  intro tl
  induction tl with
  | nil => intro p i _; rfl
  | cons b bs ih =>
    intro p i hdrop
    have hget : p.getD (i + 1) (0, 0) = b := by
      have h0 : (p.drop (i + 1))[0]? = some b := by rw [hdrop]; simp
      rw [List.getElem?_drop] at h0
      rw [List.getD_eq_getElem?_getD]
      simp [h0]
    have hdrop2 : p.drop (i + 1 + 1) = bs := by
      have : p.drop (i + 1 + 1) = (p.drop (i + 1)).drop 1 := by
        rw [List.drop_drop]
      rw [this, hdrop]
      rfl
    show nzc (e.get_cost (p.getD (i + 1) (0, 0))) + walkSum e p bs.length (i + 1) = _
    rw [hget, ih p (i + 1) hdrop2]
    rw [List.map_cons, List.sum_cons, nzc_add]

theorem walkSum_pathCost (e : GridEnv) (p : List Pos) (hp : p ≠ []) :
    walkSum e p (p.length - 1) 0 = nzc (pathCostE e p) := by
  cases p with
  | nil => exact absurd rfl hp
  | cons a tl =>
    have hlen : (a :: tl).length - 1 = tl.length := by simp
    rw [hlen]
    have := walkSum_eq e tl (a :: tl) 0 rfl
    rw [this]
    rfl

/-- C4: for every environment whose dynamic-obstacle registry is empty and
every in-bounds, passable start and goal, `local_search_replanning` returns
exactly the same path and the same cost (and, in this embedding, the same
node count) as `a_star_search` on the same inputs. -/
theorem claim_C4_empty_registry (e : GridEnv) (s g : Pos)
    (hreg : e.dynamicObstacles = [])
    (hs : e.is_valid s = true ∧ e.is_passable s = true)
    (hg2 : e.is_valid g = true ∧ e.is_passable g = true) :
    local_search_replanning e s g = a_star_search e s g := by
  obtain ⟨ka, ra, hka⟩ := hloopFuel_terminates manhattan_distance e g
    [(0 + manhattan_distance s g, 0, s, [s])] [(s, 0)] 0
  have hag : a_star_search e s g = ra := a_star_searchFuel_agree e s g ka _ hka
  rcases hloopFuel_sound e manhattan_distance s g ka _ _ _ _
      (FrontInv_init e manhattan_distance s g) hka with
    ⟨m, hrq, _, _⟩ | ⟨p, c, m, hrq, hpath, hcost, _⟩
  · rw [hrq] at hag
    unfold local_search_replanning
    rw [hag]
  · rw [hrq] at hag
    unfold local_search_replanning
    rw [hag]
    have hne : p ≠ [] := IsPath_ne_nil e s g p hpath
    have hemp : p.isEmpty = false := by
      cases p with
      | nil => exact absurd rfl hne
      | cons a tl => rfl
    dsimp only
    rw [hemp]
    simp only [Bool.false_eq_true, if_false]
    rw [replanLoop_empty g (p.length - 1) 0 e p 0 m hreg]
    rw [walkSum_pathCost e p hne, hcost, nzc_coe, zero_add]

theorem claim_C4_witness :
    gridPair.dynamicObstacles = [] ∧
    (gridPair.is_valid (0, 0) = true ∧ gridPair.is_passable (0, 0) = true) ∧
    (gridPair.is_valid (0, 1) = true ∧ gridPair.is_passable (0, 1) = true) ∧
    local_search_replanning gridPair (0, 0) (0, 1) = a_star_search gridPair (0, 0) (0, 1) :=
  ⟨rfl, by decide, by decide,
    claim_C4_empty_registry gridPair (0, 0) (0, 1) rfl (by decide) (by decide)⟩

/-- C8: in the neighbor-relaxation step shared by `uniform_cost_search` and
`a_star_search`, a visited record is overwritten only with a strictly lower
accumulated cost (otherwise the map is unchanged), and a frontier entry is
pushed exactly when the neighbor has no recorded cost or the new accumulated
cost is strictly lower than the recorded one. -/
theorem claim_C8_relaxation_invariant (h : Pos → Pos → Nat) (e : GridEnv) (goal : Pos)
    (g : Nat) (path : List Pos) (vis : VMap) (frA : List AEntry) (frU : List UEntry)
    (q : Pos) :
    ((∀ old, vlookup vis q = some old →
        (¬ g + costD (e.get_cost q) < old →
          relaxH h e goal g path (vis, frA) q = (vis, frA)) ∧
        (g + costD (e.get_cost q) < old →
          (relaxH h e goal g path (vis, frA) q).1 =
            vupdate vis q (g + costD (e.get_cost q)))) ∧
     ((relaxH h e goal g path (vis, frA) q).2 ≠ frA ↔
        vlookup vis q = none ∨
          ∃ old, vlookup vis q = some old ∧ g + costD (e.get_cost q) < old)) ∧
    ((∀ old, vlookup vis q = some old →
        (¬ g + costD (e.get_cost q) < old →
          relaxU e g path (vis, frU) q = (vis, frU)) ∧
        (g + costD (e.get_cost q) < old →
          (relaxU e g path (vis, frU) q).1 =
            vupdate vis q (g + costD (e.get_cost q)))) ∧
     ((relaxU e g path (vis, frU) q).2 ≠ frU ↔
        vlookup vis q = none ∨
          ∃ old, vlookup vis q = some old ∧ g + costD (e.get_cost q) < old)) := by
  refine ⟨⟨?_, ?_⟩, ?_, ?_⟩
  · intro old hl
    constructor
    · intro hnlt
      simp only [relaxH]
      rw [hl]
      dsimp only
      rw [if_neg hnlt]
    · intro hlt
      simp only [relaxH]
      rw [hl]
      dsimp only
      rw [if_pos hlt]
  · simp only [relaxH]
    cases hl : vlookup vis q with
    | none =>
      dsimp only
      constructor
      · intro _
        exact Or.inl rfl
      · intro _
        simp
    | some old =>
      dsimp only
      by_cases hlt : g + costD (e.get_cost q) < old
      · rw [if_pos hlt]
        constructor
        · intro _
          exact Or.inr ⟨old, rfl, hlt⟩
        · intro _
          simp
      · rw [if_neg hlt]
        constructor
        · intro hne
          exact absurd rfl hne
        · rintro (hc | ⟨old2, hsome, hlt2⟩)
          · exact absurd hc (by simp)
          · obtain rfl : old = old2 := Option.some.inj hsome
            exact absurd hlt2 hlt
  · intro old hl
    constructor
    · intro hnlt
      simp only [relaxU]
      rw [hl]
      dsimp only
      rw [if_neg hnlt]
    · intro hlt
      simp only [relaxU]
      rw [hl]
      dsimp only
      rw [if_pos hlt]
  · simp only [relaxU]
    cases hl : vlookup vis q with
    | none =>
      dsimp only
      constructor
      · intro _
        exact Or.inl rfl
      · intro _
        simp
    | some old =>
      dsimp only
      by_cases hlt : g + costD (e.get_cost q) < old
      · rw [if_pos hlt]
        constructor
        · intro _
          exact Or.inr ⟨old, rfl, hlt⟩
        · intro _
          simp
      · rw [if_neg hlt]
        constructor
        · intro hne
          exact absurd rfl hne
        · rintro (hc | ⟨old2, hsome, hlt2⟩)
          · exact absurd hc (by simp)
          · obtain rfl : old = old2 := Option.some.inj hsome
            exact absurd hlt2 hlt
